import Mathlib

/-!
# QtAutoUpdater: update-list parsing and the update controller

A shallow embedding of

* `QtIfwUpdaterBackend::parseUpdates`, `QtIfwUpdaterBackend::updaterReady` and
  `QtIfwUpdaterBackend::triggerUpdates`
  (`src/plugins/updater/qtifw/qtifwupdaterbackend.cpp`), and
* `UpdateController::start`, `cancelUpdate`, `scheduleUpdate`, `checkUpdatesDone` and
  `setRunAsAdmin` (`src/autoupdatergui/updatecontroller.cpp`).

Strings are lists of characters.  The Qt text services the parser calls
(`QXmlStreamReader`, `QVersionNumber::fromString`, `QStringRef::toULongLong`) are
library code; `parseUpdates` takes them as a parameter (`QtText`), and `qt5` is a
concrete instance used where a statement is about a concrete text.
-/

namespace QtAutoUpdater

/-! ## QString -/

/-- A `QString`, as its sequence of characters. -/
abbrev QString := List Char

/-- The opening marker `<updates>`. -/
def updatesOpen : QString := ['<', 'u', 'p', 'd', 'a', 't', 'e', 's', '>']

/-- The closing marker `</updates>`. -/
def updatesClose : QString := ['<', '/', 'u', 'p', 'd', 'a', 't', 'e', 's', '>']

/-- The element name `updates`. -/
def updatesName : QString := ['u', 'p', 'd', 'a', 't', 'e', 's']

/-- The element name `update`. -/
def updateName : QString := ['u', 'p', 'd', 'a', 't', 'e']

/-- The attribute name `name`. -/
def attrName : QString := ['n', 'a', 'm', 'e']

/-- The attribute name `version`. -/
def attrVersion : QString := ['v', 'e', 'r', 's', 'i', 'o', 'n']

/-- The attribute name `size`. -/
def attrSize : QString := ['s', 'i', 'z', 'e']

/-- Search of `needle` in the text `hay` whose first character sits at position `pos`:
the position of the first occurrence, or `-1`. -/
def indexOfFrom (needle : QString) : QString → Nat → Int
  | [], pos => if needle = [] then (pos : Int) else -1
  | c :: cs, pos =>
    if needle.isPrefixOf (c :: cs) then (pos : Int) else indexOfFrom needle cs (pos + 1)

/-- Models `QString::indexOf(needle, from)` for `from ≥ 0`: the position of the first occurrence
of `needle` at or after `from`, or `-1` when there is none. -/
def indexOf (hay needle : QString) (pos : Nat) : Int :=
  if hay.length < pos then -1 else indexOfFrom needle (hay.drop pos) pos

/-- Models `QString::mid(position, n)` for `position, n ≥ 0`: at most `n` characters from
`position` on. -/
def mid (s : QString) (position n : Nat) : QString :=
  (s.drop position).take n

/-! ## QXmlStreamReader, as the parser uses it -/

/-- Models `QXmlStreamReader::TokenType`. -/
inductive TokenType where
  | NoToken
  | Invalid
  | StartDocument
  | EndDocument
  | StartElement
  | EndElement
  | Characters
  | Comment
  | DTD
  | EntityReference
  | ProcessingInstruction
  deriving DecidableEq, Repr

/-- One attribute of a start element: qualified name and value. -/
structure XmlAttribute where
  name : QString
  value : QString
  deriving DecidableEq, Repr

/-- One token of the stream: its type, and for element tokens the element name and
(for start elements) the attributes. -/
structure XmlToken where
  type : TokenType
  name : QString
  attributes : List XmlAttribute
  deriving DecidableEq, Repr

/-- The token the reader holds after an error. -/
def invalidToken : XmlToken := ⟨TokenType.Invalid, [], []⟩

/-- The token the reader holds before the first read. -/
def noToken : XmlToken := ⟨TokenType.NoToken, [], []⟩

/-- Models `QXmlStreamAttributes::value(qualifiedName)`: the value of the first attribute of
that name, the empty string when there is none. -/
def attributeValue (attrs : List XmlAttribute) (qualifiedName : QString) : QString :=
  match attrs.find? (fun a => a.name = qualifiedName) with
  | some a => a.value
  | none => []

/-- The state of a `QXmlStreamReader`: the tokens it has yet to deliver and the token
it currently holds.  Reading past the last token is an error. -/
structure QXmlStreamReader where
  pending : List XmlToken
  current : XmlToken
  deriving DecidableEq, Repr

/-- Models `QXmlStreamReader::hasError()`: the reader holds the `Invalid` token. -/
def QXmlStreamReader.hasError (r : QXmlStreamReader) : Bool :=
  r.current.type = TokenType.Invalid

/-- Models `QXmlStreamReader::name()`. -/
def QXmlStreamReader.name (r : QXmlStreamReader) : QString := r.current.name

/-- Models `QXmlStreamReader::attributes()`. -/
def QXmlStreamReader.attributes (r : QXmlStreamReader) : List XmlAttribute :=
  r.current.attributes

/-- The loop of `readNextStartElement` over the tokens still to be delivered: tokens
are read until one is `Invalid` (result `false`), an end element or the end of the
document (`false`), or a start element (`true`). -/
def readNextStartElementFrom : List XmlToken → Bool × QXmlStreamReader
  | [] => (false, ⟨[], invalidToken⟩)
  | t :: ts =>
    if t.type = TokenType.Invalid then (false, ⟨[], t⟩)
    else if t.type = TokenType.EndElement ∨ t.type = TokenType.EndDocument then
      (false, ⟨ts, t⟩)
    else if t.type = TokenType.StartElement then (true, ⟨ts, t⟩)
    else readNextStartElementFrom ts

/-- Models `QXmlStreamReader::readNextStartElement()`.  After an error every read returns
`Invalid` again, so the call returns `false` and the reader stays as it is. -/
def QXmlStreamReader.readNextStartElement (r : QXmlStreamReader) :
    Bool × QXmlStreamReader :=
  if r.current.type = TokenType.Invalid then (false, r)
  else readNextStartElementFrom r.pending

/-! ## UpdateInfo and the Qt text services -/

/-- Models `UpdateInfo`: name, version (the segments of a `QVersionNumber`) and size. -/
structure UpdateInfo where
  name : QString
  version : List Nat
  size : Nat
  deriving DecidableEq, Repr

/-- The Qt library services `parseUpdates` calls on text. -/
structure QtText where
  /-- The tokens a `QXmlStreamReader` constructed on the text delivers, in order. -/
  xmlTokens : QString → List XmlToken
  /-- Stands for `QVersionNumber::fromString`, as the list of segments (empty: a null version). -/
  versionFromString : QString → List Nat
  /-- Stands for `QStringRef::toULongLong(&ok)`: the value and `ok`. -/
  toULongLong : QString → Nat × Bool

/-! ## parseUpdates -/

/-- The `while (reader.readNextStartElement())` loop of `parseUpdates`.  The outer
`none` is "out of fuel" (never reached from `parseUpdates`, see
`parseLoop_isSome`); `some none` is `return std::nullopt`, `some (some l)` is
`return updates`. -/
def parseLoop (qt : QtText) :
    Nat → QXmlStreamReader → List UpdateInfo → Option (Option (List UpdateInfo))
  | 0, _, _ => none
  | fuel + 1, reader, updates =>
    match reader.readNextStartElement with
    | (false, reader) =>
      if reader.hasError then some none else some (some updates)
    | (true, reader) =>
      if reader.name ≠ updateName then some none
      else
        let info : UpdateInfo :=
          { name := attributeValue reader.attributes attrName
            version := qt.versionFromString (attributeValue reader.attributes attrVersion)
            size := (qt.toULongLong (attributeValue reader.attributes attrSize)).1 }
        let ok := (qt.toULongLong (attributeValue reader.attributes attrSize)).2
        if info.name.isEmpty ∨ info.version.isEmpty ∨ ok = false then some none
        else
          match reader.readNextStartElement with
          | (true, _) => some none
          | (false, reader) => parseLoop qt fuel reader (updates ++ [info])

/-- The fragment `parseUpdates` hands to the XML reader: `none` when a marker is
missing, otherwise `outString.mid(xmlBegin, (xmlEnd + 10) - xmlBegin)`. -/
def extractFragment (outString : QString) : Option QString :=
  let xmlBegin := indexOf outString updatesOpen 0
  if xmlBegin < 0 then none
  else
    let xmlEnd := indexOf outString updatesClose xmlBegin.toNat
    if xmlEnd < 0 then none
    else some (mid outString xmlBegin.toNat ((xmlEnd + 10) - xmlBegin).toNat)

/-- Models `QtIfwUpdaterBackend::parseUpdates`, on the decoded standard output of the tool.
`none` is `std::nullopt` (parse failure), `some l` the catalog `l`.  The `Q_ASSERT`
on the root name is a no-op in a release build and is not modelled here. -/
def parseUpdates (qt : QtText) (outString : QString) : Option (List UpdateInfo) :=
  let xmlBegin := indexOf outString updatesOpen 0
  if xmlBegin < 0 then some []
  else
    let xmlEnd := indexOf outString updatesClose xmlBegin.toNat
    if xmlEnd < 0 then some []
    else
      let reader : QXmlStreamReader :=
        ⟨qt.xmlTokens (mid outString xmlBegin.toNat ((xmlEnd + 10) - xmlBegin).toNat), noToken⟩
      let reader := reader.readNextStartElement.2
      match parseLoop qt (reader.pending.length + 1) reader [] with
      | some result => result
      | none => none

/-! ## A concrete instance of the Qt text services -/

/-- The white space of C's `isspace` in the "C" locale, which `qstrtoull` skips. -/
def isAsciiSpace (c : Char) : Bool :=
  c = ' ' || (9 ≤ c.toNat && c.toNat ≤ 13)

/-- Models `QChar::isSpace`: the ASCII white space, U+0085, U+00A0 and the Unicode
separators. -/
def isQSpace (c : Char) : Bool :=
  isAsciiSpace c || c.toNat = 0x85 || c.toNat = 0xA0 || c.toNat = 0x1680 ||
    (0x2000 ≤ c.toNat && c.toNat ≤ 0x200A) || c.toNat = 0x2028 || c.toNat = 0x2029 ||
    c.toNat = 0x202F || c.toNat = 0x205F || c.toNat = 0x3000

/-- The value of a decimal digit character. -/
def digitValue (c : Char) : Nat := c.toNat - 48

/-- The value of a string of decimal digits, most significant first. -/
def digitsValue (ds : List Char) : Nat :=
  ds.foldl (fun a c => a * 10 + digitValue c) 0

/-- Models `qstrtoull(nptr, &endptr, 10, &ok)`: leading white space, no minus sign, an
optional plus sign, at least one digit, the value at most `2^64 - 1`.  `some (v, rest)`
is `ok` with value `v` and `endptr` at `rest`; `none` is `!ok`. -/
def qstrtoull (s : QString) : Option (Nat × QString) :=
  let t := s.dropWhile isAsciiSpace
  if t.head? = some '-' then none
  else
    let r := if t.head? = some '+' then t.tail else t
    if r.takeWhile Char.isDigit = [] then none
    else if 2 ^ 64 - 1 < digitsValue (r.takeWhile Char.isDigit) then none
    else some (digitsValue (r.takeWhile Char.isDigit), r.dropWhile Char.isDigit)

/-- The segment loop of `QVersionNumber::fromString`: a segment is read with
`qstrtoull`; the loop stops at a segment that does not parse or exceeds
`std::numeric_limits<int>::max()`, and goes on while the segment is followed by a dot
and at least one more character. -/
def versionSegments : Nat → QString → List Nat
  | 0, _ => []
  | fuel + 1, s =>
    match qstrtoull s with
    | none => []
    | some (value, rest) =>
      if 2147483647 < value then []
      else if rest.head? = some '.' ∧ rest.tail ≠ [] then
        value :: versionSegments fuel rest.tail
      else [value]

/-- Models `QVersionNumber::fromString(string)`, as the list of segments. -/
def versionFromString (s : QString) : List Nat :=
  versionSegments s.length s

/-- Removal of leading and trailing `QChar::isSpace` characters. -/
def trimQSpace (s : QString) : QString :=
  ((s.dropWhile isQSpace).reverse.dropWhile isQSpace).reverse

/-- Models `QStringRef::toULongLong(&ok)` in base 10: surrounding white space is dropped and
what is left must be, as a whole, a number `qstrtoull` accepts.  The result is the
value (zero on failure) and `ok`. -/
def toULongLong (s : QString) : Nat × Bool :=
  match qstrtoull (trimQSpace s) with
  | some (value, []) => (value, true)
  | _ => (0, false)

/-- White space of XML: space, tab, line feed, carriage return. -/
def isXmlSpace (c : Char) : Bool :=
  c = ' ' || c = '\t' || c = '\n' || c = '\r'

/-- Characters of an element or attribute name in the modelled subset: ASCII letters,
digits, underscore, hyphen and full stop. -/
def isNameChar (c : Char) : Bool :=
  c.isAlpha || c.isDigit || c = '_' || c = '-' || c = '.'

/-- Characters that may start a name in the modelled subset. -/
def isNameStartChar (c : Char) : Bool :=
  c.isAlpha || c = '_'

/-- Characters the reader rejects wherever they stand: the C0 controls other than
white space, U+FFFE and U+FFFF. -/
def isIllegalChar (c : Char) : Bool :=
  (c.toNat < 0x20 && !isXmlSpace c) || c.toNat = 0xFFFE || c.toNat = 0xFFFF

/-- The value of an attribute up to the closing quote `q`, with the text after the
quote.  White space is normalised to a space (a carriage return and line feed pair to
one).  `none`: no closing quote, a `<`, an illegal character, or a reference (`&`),
which is outside the modelled subset. -/
def readAttValue (q : Char) : QString → Option (QString × QString)
  | [] => none
  | '\r' :: '\n' :: cs =>
    match readAttValue q cs with
    | some (v, rest) => some (' ' :: v, rest)
    | none => none
  | c :: cs =>
    if c = q then some ([], cs)
    else if c = '<' ∨ c = '&' ∨ isIllegalChar c then none
    else
      match readAttValue q cs with
      | some (v, rest) => some ((if isXmlSpace c then ' ' else c) :: v, rest)
      | none => none

/-- The attributes of a start tag and its end: the attributes read, whether the tag
is an empty-element tag (`/>`), and the text after the tag.  `none` is a
well-formedness error (or a construct outside the modelled subset). -/
def readAttributes : Nat → QString → List XmlAttribute →
    Option (List XmlAttribute × Bool × QString)
  | 0, _, _ => none
  | fuel + 1, input, acc =>
    match input.dropWhile isXmlSpace with
    | '>' :: rest => some (acc, false, rest)
    | '/' :: '>' :: rest => some (acc, true, rest)
    | c :: rest =>
      if (input.dropWhile isXmlSpace).length = input.length then none
      else if !isNameStartChar c then none
      else
        let an := (c :: rest).takeWhile isNameChar
        if acc.any (fun a => a.name = an) then none
        else
          match ((c :: rest).dropWhile isNameChar).dropWhile isXmlSpace with
          | '=' :: r2 =>
            match r2.dropWhile isXmlSpace with
            | q :: r3 =>
              if q = '"' ∨ q = '\'' then
                match readAttValue q r3 with
                | some (v, r4) => readAttributes fuel r4 (acc ++ [⟨an, v⟩])
                | none => none
              else none
            | [] => none
          | _ => none
    | [] => none

/-- Whether the character data `txt` holds the sequence `]]>`. -/
def hasCDataEnd : QString → Bool
  | ']' :: ']' :: '>' :: _ => true
  | _ :: cs => hasCDataEnd cs
  | [] => false

/-- The tokens after the `StartDocument` token, for the text `input` read with the
elements of `stack` open (innermost first); `rootSeen` says whether the root element
has started.  The subset modelled: start tags, end tags and empty-element tags with
quoted attributes, and character data without references.  Anything else (comments,
processing instructions, CDATA sections, a document type declaration, references,
namespace prefixes, non-ASCII names) ends the stream with `Invalid`, as does every
well-formedness error; namespace declarations are kept among the attributes.  The
statements about arbitrary output are made for every reader and do not depend on this
subset. -/
def xmlTokensFrom : Nat → List QString → Bool → QString → List XmlToken
  | 0, _, _, _ => [invalidToken]
  | fuel + 1, stack, rootSeen, input =>
    match input with
    | [] =>
      if stack.isEmpty ∧ rootSeen then [⟨TokenType.EndDocument, [], []⟩]
      else [invalidToken]
    | '<' :: '/' :: rest =>
      match (rest.dropWhile isNameChar).dropWhile isXmlSpace, stack with
      | '>' :: r2, top :: stack' =>
        if rest.takeWhile isNameChar = top then
          ⟨TokenType.EndElement, top, []⟩ :: xmlTokensFrom fuel stack' rootSeen r2
        else [invalidToken]
      | _, _ => [invalidToken]
    | '<' :: c :: rest =>
      if stack.isEmpty ∧ rootSeen then [invalidToken]
      else if !isNameStartChar c then [invalidToken]
      else
        let nm := (c :: rest).takeWhile isNameChar
        match readAttributes fuel ((c :: rest).dropWhile isNameChar) [] with
        | none => [invalidToken]
        | some (attrs, true, r2) =>
          ⟨TokenType.StartElement, nm, attrs⟩ :: ⟨TokenType.EndElement, nm, []⟩ ::
            xmlTokensFrom fuel stack true r2
        | some (attrs, false, r2) =>
          ⟨TokenType.StartElement, nm, attrs⟩ :: xmlTokensFrom fuel (nm :: stack) true r2
    | c :: rest =>
      let txt := (c :: rest).takeWhile (fun x => x ≠ '<')
      if c = '<' ∨ txt.any (fun x => x = '&' || isIllegalChar x) ∨ hasCDataEnd txt then
        [invalidToken]
      else if stack.isEmpty then
        if txt.all isXmlSpace then
          xmlTokensFrom fuel stack rootSeen ((c :: rest).dropWhile (fun x => x ≠ '<'))
        else [invalidToken]
      else
        ⟨TokenType.Characters, [], []⟩ ::
          xmlTokensFrom fuel stack rootSeen ((c :: rest).dropWhile (fun x => x ≠ '<'))

/-- The tokens a `QXmlStreamReader` delivers for a text without XML declaration: a
`StartDocument` token, then the tokens of the text. -/
def xmlTokens (s : QString) : List XmlToken :=
  ⟨TokenType.StartDocument, [], []⟩ :: xmlTokensFrom (s.length + 1) [] false s

/-- The concrete instance of the Qt text services. -/
def qt5 : QtText :=
  { xmlTokens := xmlTokens
    versionFromString := versionFromString
    toULongLong := toULongLong }

/-! ## The text of a catalog -/

/-- The decimal numeral of a natural number. -/
def renderNat (n : Nat) : QString := Nat.toDigits 10 n

/-- The dotted numeral of a version: its segments in decimal, separated by dots. -/
def renderVersion : List Nat → QString
  | [] => []
  | [a] => renderNat a
  | a :: b :: rest => renderNat a ++ '.' :: renderVersion (b :: rest)

/-- The self-closing element `<update name="…" version="…" size="…"/>` of a record. -/
def renderUpdate (u : UpdateInfo) : QString :=
  "<update name=\"".toList ++ u.name ++ "\" version=\"".toList ++ renderVersion u.version ++
    "\" size=\"".toList ++ renderNat u.size ++ "\"/>".toList

/-- The text `<updates>`, one `update` element per record, `</updates>`. -/
def renderCatalog (us : List UpdateInfo) : QString :=
  updatesOpen ++ (us.map renderUpdate).flatten ++ updatesClose

/-! ## QtIfwUpdaterBackend::updaterReady -/

/-- Models `QProcess::ExitStatus`. -/
inductive ExitStatus where
  | NormalExit
  | CrashExit
  deriving DecidableEq, Repr

/-- What `updaterReady` does that is visible outside: the two signals of the backend,
and the closing of the process. -/
inductive BackendEvent where
  | checkDone (updates : List UpdateInfo)
  | error (message : QString)
  | processClose
  deriving DecidableEq, Repr

/-- Whether a backend event is an emitted signal. -/
def BackendEvent.isSignal : BackendEvent → Bool
  | BackendEvent.checkDone _ => true
  | BackendEvent.error _ => true
  | BackendEvent.processClose => false

/-- The message of the error signal for unreadable output. -/
def invalidOutputMessage : QString := "Read invalid output from MaintenanceTool".toList

/-- Models `EXIT_SUCCESS`. -/
def EXIT_SUCCESS : Int := 0

/-- Models `QtIfwUpdaterBackend::updaterReady(exitCode, exitStatus)`, with the standard output
the process has written: the events of the call, in order. -/
def updaterReady (qt : QtText) (output : QString) (exitCode : Int)
    (exitStatus : ExitStatus) : List BackendEvent :=
  (if exitStatus = ExitStatus.NormalExit then
    if exitCode = EXIT_SUCCESS then
      match parseUpdates qt output with
      | some updates => [BackendEvent.checkDone updates]
      | none => [BackendEvent.error invalidOutputMessage]
    else [BackendEvent.checkDone []]
  else []) ++ [BackendEvent.processClose]

/-! ## UpdateController -/

/-- The values of the enumeration `UpdateController::DisplayLevel` that the controller
compares with.  The enumeration is declared in `updatecontroller.h`, which is not among
the sources, so the values are a parameter. -/
structure DisplayLevels where
  AskLevel : Int
  InfoLevel : Int
  ExtendedInfoLevel : Int
  ProgressLevel : Int
  ExitLevel : Int
  deriving DecidableEq, Repr

/-- Modelled from the spec: the values of `UpdateController::DisplayLevel` (declared in
`updatecontroller.h`, which is missing), in the order the spec gives,
Silent < Ask < Info < ExtendedInfo < Progress < Exit, numbered from 0. -/
def specLevels : DisplayLevels :=
  { AskLevel := 1, InfoLevel := 2, ExtendedInfoLevel := 3, ProgressLevel := 4, ExitLevel := 5 }

/-- Models `QTaskbarControl::WinProgressState`, the values the controller sets. -/
inductive WinProgressState where
  | Running
  | Paused
  | Stopped
  deriving DecidableEq, Repr

/-- Models `UpdateInfoDialog::DialogResult`. -/
inductive DialogResult where
  | InstallNow
  | InstallLater
  | NoInstall
  deriving DecidableEq, Repr

/-- The calls the controller makes on its collaborators and the signals it emits. -/
inductive Event where
  /-- Stands for `emit runningChanged(running)`. -/
  | runningChanged (running : Bool)
  /-- Stands for `emit runAsAdminChanged(runAsAdmin)`. -/
  | runAsAdminChanged (runAsAdmin : Bool)
  /-- Stands for `DialogMaster::questionT`: "Do you want to check for updates now?". -/
  | question
  /-- Stands for `DialogMaster::warningT`: "The program is already checking for updates!". -/
  | warningAlreadyChecking
  /-- Stands for `DialogMaster::warningT`: "Checking for updates was canceled!". -/
  | warningCanceled
  /-- Stands for `DialogMaster::warningT`: "The update process crashed!". -/
  | warningCrashed
  /-- Stands for `DialogMaster::criticalT`: "No new updates available!". -/
  | criticalNoUpdates
  /-- Stands for `DialogMaster::informationT`: the tool starts when the application is closed. -/
  | informationOnExit
  /-- Stands for `UpdateInfoDialog::showUpdateInfo`, the install-decision dialog. -/
  | showUpdateInfo (runAdmin adminUserEdit detailedInfo : Bool)
  /-- Stands for `mainUpdater->checkForUpdates()`. -/
  | checkForUpdates
  /-- Stands for `mainUpdater->abortUpdateCheck(maxDelay, async)`. -/
  | abortUpdateCheck (maxDelay : Int) (async : Bool)
  /-- Stands for `mainUpdater->runUpdaterOnExit(authoriser)`; `elevated` when an
  `AdminAuthorization` is passed. -/
  | runUpdaterOnExit (elevated : Bool)
  /-- Stands for `qApp->quit()`. -/
  | quit
  /-- Stands for `new ProgressDialog` and `open`. -/
  | progressOpen
  /-- Stands for `checkUpdatesProgress->setCanceled()`. -/
  | progressSetCanceled
  /-- Stands for `checkUpdatesProgress->hide()` and `deleteLater()`. -/
  | progressHide
  /-- Stands for `taskbar->setProgress(-1.0)` and `setProgressVisible(true)`. -/
  | taskbarBusy
  /-- Stands for `taskbar->setCounter(count)` and `setCounterVisible(true)`. -/
  | taskbarCounter (count : Nat)
  /-- Stands for `taskbar->setCounterVisible(false)`. -/
  | taskbarCounterHidden
  /-- Stands for `d->setTaskbarState(state)`. -/
  | setTaskbarState (state : WinProgressState)
  /-- Stands for `d->clearTaskbar()`. -/
  | clearTaskbar
  /-- Stands for `qCWarning`: a line in the log. -/
  | logWarning
  /-- Stands for `scheduler->startSchedule(msecs, repeated, level)`. -/
  | startSchedule (msecs : Int) (repeated : Bool) (level : Int)
  deriving DecidableEq, Repr

/-- The state of the controller (`UpdateControllerPrivate`), the state of the hand-off
it arms, and the trace of what it has done. -/
structure Controller where
  running : Bool
  wasCanceled : Bool
  displayLevel : Int
  /-- Whether `checkUpdatesProgress` points to a dialog. -/
  checkUpdatesProgress : Bool
  runAdmin : Bool
  adminUserEdit : Bool
  detailedInfo : Bool
  /-- Whether `taskbar` points to a taskbar control. -/
  taskbar : Bool
  /-- Modelled from the spec: the hand-off held by the `Updater` (its class is not among
  the sources): `none` when no hand-off is armed, `some e` when one is armed and runs
  elevated exactly when `e`. -/
  handOff : Option Bool
  trace : List Event
  deriving DecidableEq, Repr

/-- The controller after one more call or signal. -/
def Controller.emit (c : Controller) (e : Event) : Controller :=
  { c with trace := c.trace ++ [e] }

/-- Models `d->mainUpdater->runUpdaterOnExit(d->runAdmin ? new AdminAuthorization() : nullptr)`. -/
def Controller.armHandOff (c : Controller) : Controller :=
  ({ c with handOff := some c.runAdmin }).emit (Event.runUpdaterOnExit c.runAdmin)

/-- What the collaborators answer during `start`. -/
structure StartEnv where
  /-- Whether the answer to the question is `QMessageBox::Yes`. -/
  answerYes : Bool
  /-- The result of `mainUpdater->checkForUpdates()`. -/
  checkForUpdates : Bool
  deriving DecidableEq, Repr

/-- Models `UpdateController::start(displayLevel)`. -/
def start (lv : DisplayLevels) (env : StartEnv) (c : Controller) (displayLevel : Int) :
    Bool × Controller :=
  if c.running then (false, c)
  else
    let c := { c with running := true }
    let c := c.emit (Event.runningChanged true)
    let c := { c with wasCanceled := false }
    let c := { c with displayLevel := displayLevel }
    let c := if c.displayLevel ≥ lv.AskLevel then c.emit Event.question else c
    if c.displayLevel ≥ lv.AskLevel ∧ env.answerYes = false then
      let c := { c with running := false }
      let c := c.emit (Event.runningChanged false)
      (false, c)
    else
      let c := c.emit Event.checkForUpdates
      if env.checkForUpdates = false then
        let c := if c.displayLevel ≥ lv.ProgressLevel then c.emit Event.warningAlreadyChecking
          else c
        let c := { c with running := false }
        let c := c.emit (Event.runningChanged false)
        (false, c)
      else
        let c :=
          if c.displayLevel ≥ lv.ExtendedInfoLevel then
            if c.displayLevel ≥ lv.ProgressLevel then
              let c := if c.taskbar then c.emit Event.taskbarBusy else c
              let c := { c with checkUpdatesProgress := true }
              c.emit Event.progressOpen
            else c
          else c
        (true, c)

/-- The slot connected to `ProgressDialog::canceled` in `start`. -/
def progressCanceled (c : Controller) : Controller :=
  { c with wasCanceled := true }

/-- Models `UpdateController::cancelUpdate(maxDelay)`; `updaterRunning` is the answer of
`mainUpdater->isRunning()`. -/
def cancelUpdate (updaterRunning : Bool) (c : Controller) (maxDelay : Int) :
    Bool × Controller :=
  if updaterRunning then
    let c := { c with wasCanceled := true }
    let c := if c.checkUpdatesProgress then c.emit Event.progressSetCanceled else c
    let c := c.emit (Event.abortUpdateCheck maxDelay true)
    (true, c)
  else (false, c)

/-- The value of a C++ `int` computation whose exact result is `x`, on a machine where
overflow wraps (two's complement, 32 bits). -/
def wrapInt32 (x : Int) : Int :=
  (x + 2 ^ 31) % 2 ^ 32 - 2 ^ 31

/-- Models `UpdateController::scheduleUpdate(delaySeconds, repeated, displayLevel)`; `taskId`
is what `scheduler->startSchedule` returns when it is called.  The comparison is made
on `qint64`, where the product is exact; the argument passed to the scheduler is an
`int` product. -/
def scheduleUpdate (taskId : Int) (c : Controller) (delaySeconds : Int) (repeated : Bool)
    (displayLevel : Int) : Int × Controller :=
  if delaySeconds * 1000 > 2147483647 then
    let c := c.emit Event.logWarning
    (0, c)
  else
    (taskId, c.emit (Event.startSchedule (wrapInt32 (delaySeconds * 1000)) repeated displayLevel))

/-- What the collaborators answer during `checkUpdatesDone`. -/
structure DoneEnv where
  /-- Stands for `d->mainUpdater->updateInfo().size()`. -/
  updateCount : Nat
  /-- The value of `d->runAdmin` when the install-decision dialog returns (the dialog
  receives it by reference). -/
  dialogRunAdmin : Bool
  /-- The result of the install-decision dialog. -/
  dialogResult : DialogResult
  /-- Stands for `d->mainUpdater->exitedNormally()`. -/
  exitedNormally : Bool
  deriving DecidableEq, Repr

/-- Models `UpdateController::checkUpdatesDone(hasUpdates, hasError)`. -/
def checkUpdatesDone (lv : DisplayLevels) (env : DoneEnv) (c : Controller)
    (hasUpdates hasError : Bool) : Controller :=
  let c :=
    if c.displayLevel ≥ lv.ExtendedInfoLevel then
      if c.checkUpdatesProgress then
        let c := c.emit Event.progressHide
        { c with checkUpdatesProgress := false }
      else c
    else c
  let c :=
    if c.wasCanceled then
      if c.displayLevel ≥ lv.ExtendedInfoLevel then
        let c := c.emit (Event.setTaskbarState WinProgressState.Paused)
        c.emit Event.warningCanceled
      else c
    else
      if hasUpdates then
        if c.displayLevel ≥ lv.InfoLevel then
          let c := c.emit (Event.setTaskbarState WinProgressState.Running)
          let c :=
            if c.taskbar then
              if env.updateCount > 0 then c.emit (Event.taskbarCounter env.updateCount)
              else c.emit Event.taskbarCounterHidden
            else c
          let oldRunAdmin := c.runAdmin
          let c := c.emit (Event.showUpdateInfo c.runAdmin c.adminUserEdit c.detailedInfo)
          let c := { c with runAdmin := env.dialogRunAdmin }
          let c := c.emit Event.clearTaskbar
          let c := if c.runAdmin ≠ oldRunAdmin then c.emit (Event.runAsAdminChanged c.runAdmin)
            else c
          match env.dialogResult with
          | DialogResult.InstallNow =>
            let c := c.armHandOff
            c.emit Event.quit
          | DialogResult.InstallLater => c.armHandOff
          | DialogResult.NoInstall => c
        else
          let c := c.armHandOff
          if c.displayLevel = lv.ExitLevel then
            let c := c.emit (Event.setTaskbarState WinProgressState.Running)
            c.emit Event.informationOnExit
          else c.emit Event.quit
      else
        let c := if hasError then c.emit Event.logWarning else c
        if c.displayLevel ≥ lv.ExtendedInfoLevel then
          if env.exitedNormally then
            let c := c.emit (Event.setTaskbarState WinProgressState.Stopped)
            c.emit Event.criticalNoUpdates
          else
            let c := c.emit (Event.setTaskbarState WinProgressState.Paused)
            c.emit Event.warningCrashed
        else c
  let c := c.emit Event.clearTaskbar
  let c := { c with running := false }
  c.emit (Event.runningChanged false)

/-! ## Vocabulary for statements about the token stream -/

/-- Whether `readNextStartElement` passes over the token: it is neither `Invalid`, nor
a start element, an end element or the end of the document. -/
def XmlToken.isSkipped (t : XmlToken) : Bool :=
  t.type ≠ TokenType.Invalid ∧ t.type ≠ TokenType.StartElement ∧
    t.type ≠ TokenType.EndElement ∧ t.type ≠ TokenType.EndDocument

/-- The record the loop builds from the attributes of a start element. -/
def updateInfoOf (qt : QtText) (attrs : List XmlAttribute) : UpdateInfo :=
  { name := attributeValue attrs attrName
    version := qt.versionFromString (attributeValue attrs attrVersion)
    size := (qt.toULongLong (attributeValue attrs attrSize)).1 }

/-- Whether the loop accepts the attributes of a start element: the name is not empty,
the version is not null and the size was converted. -/
def acceptsAttributes (qt : QtText) (attrs : List XmlAttribute) : Bool :=
  !(attributeValue attrs attrName).isEmpty &&
    !(qt.versionFromString (attributeValue attrs attrVersion)).isEmpty &&
    (qt.toULongLong (attributeValue attrs attrSize)).2

/-- The loop of `parseUpdates` on a reader that has `pending` left to deliver and
holds no error, with the fuel `parseUpdates` gives it. -/
def loopOn (qt : QtText) (pending : List XmlToken) (updates : List UpdateInfo) :
    Option (Option (List UpdateInfo)) :=
  parseLoop qt (pending.length + 1) ⟨pending, noToken⟩ updates

/-- A run of tokens in which every start element is closed by an end element, in
order, and that holds no `Invalid` and no end of document: a sequence of complete
elements and of tokens between them. -/
inductive Balanced : List XmlToken → Prop where
  | nil : Balanced []
  | skip (t : XmlToken) (ts : List XmlToken) :
      t.isSkipped = true → Balanced ts → Balanced (t :: ts)
  | element (s e : XmlToken) (inner ts : List XmlToken) :
      s.type = TokenType.StartElement → e.type = TokenType.EndElement →
      Balanced inner → Balanced ts → Balanced (s :: (inner ++ e :: ts))

/-- Characters that an attribute value in double quotes delivers unchanged: every
character but the double quote, `<`, `&`, tab, line feed, carriage return and the
characters the reader rejects. -/
def isPlainChar (c : Char) : Bool :=
  c ≠ '"' && c ≠ '<' && c ≠ '&' && c ≠ '\t' && c ≠ '\n' && c ≠ '\r' && !isIllegalChar c

/-- The attributes of the element that `renderUpdate` writes for a record. -/
def recordAttributes (u : UpdateInfo) : List XmlAttribute :=
  [⟨attrName, u.name⟩, ⟨attrVersion, renderVersion u.version⟩, ⟨attrSize, renderNat u.size⟩]

/-- The tokens of the elements that `renderUpdate` writes for a list of records. -/
def recordTokens (us : List UpdateInfo) : List XmlToken :=
  (us.map fun u =>
    [⟨TokenType.StartElement, updateName, recordAttributes u⟩,
      ⟨TokenType.EndElement, updateName, []⟩]).flatten

/-- A text in which every `<` is followed by the letter `u`. -/
def LtThenU (s : QString) : Prop :=
  ∀ a b, s = a ++ '<' :: b → ∃ b', b = 'u' :: b'

/-- A record that can be written as an `update` element and read back: the name is not
empty and made of characters an attribute value delivers unchanged, the version is not
null and has segments of at most `2^31 - 1` (a `QVersionNumber` holds `int` segments),
and the size is at most `2^64 - 1`. -/
def UpdateInfo.Writable (u : UpdateInfo) : Prop :=
  u.name ≠ [] ∧ (∀ c ∈ u.name, isPlainChar c = true) ∧
    u.version ≠ [] ∧ (∀ x ∈ u.version, x ≤ 2147483647) ∧ u.size ≤ 2 ^ 64 - 1

/-- A sequence of calls of `start`, each with its level and with what the collaborators
answer during it. -/
def startAll (lv : DisplayLevels) (calls : List (StartEnv × Int)) (c : Controller) :
    Controller :=
  calls.foldl (fun c call => (start lv call.1 c call.2).2) c

/-! ## Further operations of the controller and of the backend -/

/-- Models `UpdateController::setRunAsAdmin(runAsAdmin, userEditable)`.  The answer of
`d->mainUpdater->willRunOnExit()` is whether a hand-off is armed. -/
def setRunAsAdmin (c : Controller) (runAsAdmin userEditable : Bool) : Controller :=
  let c :=
    if c.runAdmin ≠ runAsAdmin then
      let c := { c with runAdmin := runAsAdmin }
      let c := if c.handOff.isSome then c.armHandOff else c
      c.emit (Event.runAsAdminChanged runAsAdmin)
    else c
  { c with adminUserEdit := userEditable }

/-- What an elevation helper (`AdminAuthoriser`) answers. -/
structure AdminAuthoriser where
  /-- Stands for `hasAdminRights()`. -/
  hasAdminRights : Bool
  /-- Stands for `executeAsAdmin(program, arguments)`. -/
  executeAsAdmin : QString → List QString → Bool

/-- What `triggerUpdates` finds around it: the configuration, the elevation helper and
the operating system. -/
structure TriggerEnv where
  /-- The value of the configuration option `silent` as a boolean, when it is set. -/
  silent : Option Bool
  /-- The elevation helper `_authoriser`, when one is configured. -/
  authoriser : Option AdminAuthoriser
  /-- Stands for `QProcess::startDetached(program, arguments, workingDirectory)`. -/
  startDetached : QString → List QString → QString → Bool

/-- The launch `triggerUpdates` makes. -/
inductive Launch where
  | executeAsAdmin (program : QString) (arguments : List QString)
  | startDetached (program : QString) (arguments : List QString) (workingDirectory : QString)
  deriving DecidableEq, Repr

/-- Models `QtIfwUpdaterBackend::triggerUpdates(updates)` for a process with the given
program and working directory: the value returned and the launch made. -/
def triggerUpdates (env : TriggerEnv) (program workingDirectory : QString)
    (_updates : List UpdateInfo) : Bool × Launch :=
  let arguments : List QString :=
    [if env.silent.getD false then "--silentUpdate".toList else "--updater".toList]
  match env.authoriser with
  | some authoriser =>
    if !authoriser.hasAdminRights then
      (authoriser.executeAsAdmin program arguments, Launch.executeAsAdmin program arguments)
    else
      (env.startDetached program arguments workingDirectory,
        Launch.startDetached program arguments workingDirectory)
  | none =>
    (env.startDetached program arguments workingDirectory,
      Launch.startDetached program arguments workingDirectory)

/-- The reader at the `Q_ASSERT` of `parseUpdates`, after the first
`readNextStartElement`; `none` when a marker is missing and the assertion is not
reached. -/
def readerAtAssert (qt : QtText) (outString : QString) : Option QXmlStreamReader :=
  (extractFragment outString).map fun fragment =>
    (QXmlStreamReader.readNextStartElement ⟨qt.xmlTokens fragment, noToken⟩).2

/-- A call of one of the four operations of the controller, with what the
collaborators answer during it. -/
inductive Call where
  | start (env : StartEnv) (displayLevel : Int)
  | cancelUpdate (updaterRunning : Bool) (maxDelay : Int)
  | checkUpdatesDone (env : DoneEnv) (hasUpdates hasError : Bool)
  | setRunAsAdmin (runAsAdmin userEditable : Bool)

/-- The controller after a call. -/
def Controller.call (lv : DisplayLevels) (c : Controller) : Call → Controller
  | Call.start env displayLevel => (start lv env c displayLevel).2
  | Call.cancelUpdate updaterRunning maxDelay => (cancelUpdate updaterRunning c maxDelay).2
  | Call.checkUpdatesDone env hasUpdates hasError =>
    checkUpdatesDone lv env c hasUpdates hasError
  | Call.setRunAsAdmin runAsAdmin userEditable => setRunAsAdmin c runAsAdmin userEditable

/-- The controller after a sequence of calls. -/
def Controller.calls (lv : DisplayLevels) (c : Controller) (calls : List Call) : Controller :=
  calls.foldl (Controller.call lv) c

/-- Modelled from the spec: the initial states of the controller (the member
initialisers are in `updatecontroller_p.h`, which is missing): the controller is idle
and has no progress surrogate; the other members are left open. -/
def Controller.Initial (c : Controller) : Prop :=
  c.running = false ∧ c.checkUpdatesProgress = false

/-- The states the controller reaches from an initial state by calls of `start`,
`cancelUpdate`, `checkUpdatesDone` and `setRunAsAdmin`. -/
def Controller.Reachable (lv : DisplayLevels) (c : Controller) : Prop :=
  ∃ c0 calls, Controller.Initial c0 ∧ c = Controller.calls lv c0 calls

/-- The first part of `checkUpdatesDone`: the progress surrogate is torn down when the
level is at least `ExtendedInfoLevel`. -/
def checkUpdatesDoneTeardown (lv : DisplayLevels) (c : Controller) : Controller :=
  if c.displayLevel ≥ lv.ExtendedInfoLevel then
    if c.checkUpdatesProgress then
      let c := c.emit Event.progressHide
      { c with checkUpdatesProgress := false }
    else c
  else c

/-- The middle part of `checkUpdatesDone`, between the teardown of the progress
surrogate and the final `clearTaskbar`: the branches on `wasCanceled`, `hasUpdates` and
`hasError`. -/
def checkUpdatesDoneReport (lv : DisplayLevels) (env : DoneEnv) (c : Controller)
    (hasUpdates hasError : Bool) : Controller :=
  if c.wasCanceled then
    if c.displayLevel ≥ lv.ExtendedInfoLevel then
      let c := c.emit (Event.setTaskbarState WinProgressState.Paused)
      c.emit Event.warningCanceled
    else c
  else
    if hasUpdates then
      if c.displayLevel ≥ lv.InfoLevel then
        let c := c.emit (Event.setTaskbarState WinProgressState.Running)
        let c :=
          if c.taskbar then
            if env.updateCount > 0 then c.emit (Event.taskbarCounter env.updateCount)
            else c.emit Event.taskbarCounterHidden
          else c
        let oldRunAdmin := c.runAdmin
        let c := c.emit (Event.showUpdateInfo c.runAdmin c.adminUserEdit c.detailedInfo)
        let c := { c with runAdmin := env.dialogRunAdmin }
        let c := c.emit Event.clearTaskbar
        let c := if c.runAdmin ≠ oldRunAdmin then c.emit (Event.runAsAdminChanged c.runAdmin)
          else c
        match env.dialogResult with
        | DialogResult.InstallNow =>
          let c := c.armHandOff
          c.emit Event.quit
        | DialogResult.InstallLater => c.armHandOff
        | DialogResult.NoInstall => c
      else
        let c := c.armHandOff
        if c.displayLevel = lv.ExitLevel then
          let c := c.emit (Event.setTaskbarState WinProgressState.Running)
          c.emit Event.informationOnExit
        else c.emit Event.quit
    else
      let c := if hasError then c.emit Event.logWarning else c
      if c.displayLevel ≥ lv.ExtendedInfoLevel then
        if env.exitedNormally then
          let c := c.emit (Event.setTaskbarState WinProgressState.Stopped)
          c.emit Event.criticalNoUpdates
        else
          let c := c.emit (Event.setTaskbarState WinProgressState.Paused)
          c.emit Event.warningCrashed
      else c

/-! ## Theorems: the search for the markers -/

/-- No occurrence of a non-empty needle: the search returns `-1`. -/
theorem indexOfFrom_of_not_infix (needle : QString) (hne : needle ≠ []) :
    ∀ (hay : QString) (pos : Nat), ¬ needle <:+: hay → indexOfFrom needle hay pos = -1 := by
  intro hay
  induction hay with
  | nil => intro pos _; simp [indexOfFrom, hne]
  | cons c cs ih =>
    intro pos h
    have hpre : ¬ needle <+: c :: cs := fun hp => h hp.isInfix
    have htail : ¬ needle <:+: cs := fun hi =>
      h (hi.trans (List.suffix_cons c cs).isInfix)
    simp only [indexOfFrom, List.isPrefixOf_iff_prefix, hpre, if_false]
    exact ih (pos + 1) htail

/-- The search returns the position of the first occurrence. -/
theorem indexOfFrom_of_first (needle : QString) (hne : needle ≠ []) :
    ∀ (pre post : QString) (pos : Nat),
      (∀ pre' post', pre ++ needle ++ post = pre' ++ needle ++ post' →
        pre.length ≤ pre'.length) →
      indexOfFrom needle (pre ++ needle ++ post) pos = (pos : Int) + pre.length := by
  intro pre
  induction pre with
  | nil =>
    intro post pos _
    cases needle with
    | nil => exact absurd rfl hne
    | cons a as =>
      have : (a :: as) <+: (a :: as) ++ post := List.prefix_append _ _
      simp [indexOfFrom, List.isPrefixOf_iff_prefix]
  | cons c pre ih =>
    intro post pos hmin
    have hpre : ¬ needle <+: c :: (pre ++ needle ++ post) := by
      rintro ⟨t, ht⟩
      have := hmin [] t (by simpa using ht.symm)
      simp at this
    have hmin' : ∀ pre' post', pre ++ needle ++ post = pre' ++ needle ++ post' →
        pre.length ≤ pre'.length := by
      intro pre' post' h
      have := hmin (c :: pre') post' (by simp [h])
      simpa using this
    have hrec := ih post (pos + 1) hmin'
    have hstep : indexOfFrom needle (c :: (pre ++ needle ++ post)) pos =
        indexOfFrom needle (pre ++ needle ++ post) (pos + 1) := by
      simp only [indexOfFrom, List.isPrefixOf_iff_prefix, hpre, if_false]
    rw [List.cons_append, List.cons_append, hstep, hrec]
    simp only [List.length_cons, Nat.cast_add, Nat.cast_one]
    ring

/-- The search from position `pre.length` looks at the text after `pre`. -/
theorem indexOf_append_left (pre rest needle : QString) :
    indexOf (pre ++ rest) needle pre.length = indexOfFrom needle rest pre.length := by
  simp [indexOf]

/-- The search from position `0` looks at the whole text. -/
theorem indexOf_zero (hay needle : QString) :
    indexOf hay needle 0 = indexOfFrom needle hay 0 := by
  simp [indexOf]

/-- The result of `parseUpdates` when a marker is missing. -/
theorem parseUpdates_of_extract_none (qt : QtText) (out : QString)
    (h : extractFragment out = none) : parseUpdates qt out = some [] := by
  unfold extractFragment at h
  unfold parseUpdates
  by_cases h1 : indexOf out updatesOpen 0 < 0
  · simp [h1]
  · simp only [h1, if_false] at h ⊢
    by_cases h2 : indexOf out updatesClose (indexOf out updatesOpen 0).toNat < 0
    · simp [h2]
    · simp [h2] at h

/-- The result of `parseUpdates` when both markers are found: the loop run on the
tokens of the fragment. -/
theorem parseUpdates_of_extract_some (qt : QtText) (out frag : QString)
    (h : extractFragment out = some frag) :
    parseUpdates qt out =
      (parseLoop qt
        ((QXmlStreamReader.readNextStartElement ⟨qt.xmlTokens frag, noToken⟩).2.pending.length + 1)
        (QXmlStreamReader.readNextStartElement ⟨qt.xmlTokens frag, noToken⟩).2 []).join := by
  unfold extractFragment at h
  unfold parseUpdates
  by_cases h1 : indexOf out updatesOpen 0 < 0
  · simp [h1] at h
  · simp only [h1, if_false] at h ⊢
    by_cases h2 : indexOf out updatesClose (indexOf out updatesOpen 0).toNat < 0
    · simp [h2] at h
    · simp only [h2, if_false, Option.some.injEq] at h ⊢
      rw [h]
      cases parseLoop qt _ _ [] <;> rfl

/-- The fragment is missing when the text has no opening marker. -/
theorem extractFragment_of_no_open (out : QString) (h : ¬ updatesOpen <:+: out) :
    extractFragment out = none := by
  have h0 : indexOf out updatesOpen 0 = -1 := by
    rw [indexOf_zero]
    exact indexOfFrom_of_not_infix updatesOpen (by decide) out 0 h
  simp [extractFragment, h0]

/-- The fragment is missing when no closing marker stands at or after the first
opening marker. -/
theorem extractFragment_of_no_close (pre post : QString)
    (hfirst : ∀ pre' post', pre ++ updatesOpen ++ post = pre' ++ updatesOpen ++ post' →
      pre.length ≤ pre'.length)
    (hclose : ¬ updatesClose <:+: updatesOpen ++ post) :
    extractFragment (pre ++ updatesOpen ++ post) = none := by
  have h0 : indexOf (pre ++ updatesOpen ++ post) updatesOpen 0 = (pre.length : Int) := by
    rw [indexOf_zero, indexOfFrom_of_first updatesOpen (by decide) pre post 0 hfirst]
    simp
  have h1 : indexOf (pre ++ updatesOpen ++ post) updatesClose pre.length = -1 := by
    rw [List.append_assoc, indexOf_append_left]
    exact indexOfFrom_of_not_infix updatesClose (by decide) _ _ hclose
  unfold extractFragment
  simp only [h0, Int.toNat_ofNat, h1]
  simp

/-- C1: for every reader and every captured output that contains no `<updates>`, or
whose first `<updates>` (at position `pre.length`) is not followed by a `</updates>`
at or after that position, `parseUpdates` returns the empty catalog and not the
parse failure. -/
theorem parseUpdates_missing_marker (qt : QtText) (out : QString)
    (h : ¬ updatesOpen <:+: out ∨
      ∃ pre post, out = pre ++ updatesOpen ++ post ∧
        (∀ pre' post', out = pre' ++ updatesOpen ++ post' → pre.length ≤ pre'.length) ∧
        ¬ updatesClose <:+: updatesOpen ++ post) :
    parseUpdates qt out = some [] := by
  apply parseUpdates_of_extract_none
  rcases h with h | ⟨pre, post, rfl, hfirst, hclose⟩
  · exact extractFragment_of_no_open out h
  · exact extractFragment_of_no_close pre post hfirst hclose

/-- A needle that starts with `<` and has no other `<` cannot overlap itself: when it
does not occur in `pre`, its first occurrence in `pre ++ needle ++ rest` is the one
after `pre`. -/
theorem first_occurrence_of_marker (needle t : QString) (hn : needle = '<' :: t)
    (ht : '<' ∉ t) (pre rest pre' post' : QString) (hno : ¬ needle <:+: pre)
    (heq : pre ++ needle ++ rest = pre' ++ needle ++ post') :
    pre.length ≤ pre'.length := by
  rw [List.append_assoc, List.append_assoc] at heq
  rcases List.append_eq_append_iff.mp heq with ⟨a, rfl, _⟩ | ⟨c, hpre, hrest⟩
  · simp
  · rcases List.append_eq_append_iff.mp hrest with ⟨a, rfl, _⟩ | ⟨c2, hsplit, hhead⟩
    · exact absurd ⟨pre', a, by rw [hpre, List.append_assoc]⟩ hno
    · cases c with
      | nil => simp [hpre]
      | cons x c1 =>
        cases c2 with
        | nil =>
          rw [List.append_nil] at hsplit
          exact absurd ⟨pre', [], by rw [hpre, hsplit, List.append_nil]⟩ hno
        | cons y c3 =>
          exfalso
          rw [hn] at hsplit hhead
          simp only [List.cons_append, List.cons.injEq] at hsplit hhead
          apply ht
          rw [hsplit.2, ← hhead.1]
          simp

/-- The fragment `parseUpdates` reads from `P ++ F ++ S` is `F`, when `F` begins with
the opening marker and has the closing marker at its end and nowhere else, and `P` has
no opening marker. -/
theorem extractFragment_surrounded (P F S : QString)
    (hbegin : updatesOpen <+: F) (hend : updatesClose <:+ F)
    (honly : ∀ a b, F = a ++ updatesClose ++ b → b = [])
    (hP : ¬ updatesOpen <:+: P) :
    extractFragment (P ++ F ++ S) = some F := by
  obtain ⟨M, hM⟩ := hbegin
  obtain ⟨F0, hF0⟩ := hend
  have hF0no : ¬ updatesClose <:+: F0 := by
    rintro ⟨a, b, hab⟩
    have := honly a (b ++ updatesClose) (by rw [← hF0, ← hab]; simp)
    simp [updatesClose] at this
  have h0 : indexOf (P ++ F ++ S) updatesOpen 0 = (P.length : Int) := by
    have hfirst : ∀ pre' post', P ++ updatesOpen ++ (M ++ S) = pre' ++ updatesOpen ++ post' →
        P.length ≤ pre'.length := fun pre' post' h =>
      first_occurrence_of_marker updatesOpen _ rfl (by decide) P (M ++ S) pre' post' hP h
    have := indexOfFrom_of_first updatesOpen (by decide) P (M ++ S) 0 hfirst
    rw [indexOf_zero, ← hM]
    simpa using this
  have h1 : indexOf (P ++ F ++ S) updatesClose P.length = (P.length : Int) + F0.length := by
    have hfirst : ∀ pre' post', F0 ++ updatesClose ++ S = pre' ++ updatesClose ++ post' →
        F0.length ≤ pre'.length := fun pre' post' h =>
      first_occurrence_of_marker updatesClose _ rfl (by decide) F0 S pre' post' hF0no h
    have := indexOfFrom_of_first updatesClose (by decide) F0 S P.length hfirst
    rw [List.append_assoc, indexOf_append_left, ← hF0]
    exact this
  have hlen : F.length = F0.length + 10 := by rw [← hF0]; simp [updatesClose]
  unfold extractFragment
  simp only [h0, Int.toNat_ofNat, h1]
  have hn1 : ¬ ((P.length : Int) < 0) := by omega
  have hn2 : ¬ ((P.length : Int) + F0.length < 0) := by omega
  have hcount : ((P.length : Int) + F0.length + 10 - P.length).toNat = F.length := by
    rw [hlen]; omega
  simp only [hn1, hn2, if_false, hcount, mid]
  rw [List.append_assoc, List.drop_left, List.take_left]

/-- C5: surrounding text is irrelevant.  For every reader, every fragment `F` that
begins with `<updates>` and whose only occurrence of `</updates>` is its end, every
prefix `P` without `<updates>` and every suffix `S`, `parseUpdates (P ++ F ++ S)` is
`parseUpdates F`; the text handed to the reader is `F` in both cases. -/
theorem parseUpdates_surrounding_text (qt : QtText) (P F S : QString)
    (hbegin : updatesOpen <+: F) (hend : updatesClose <:+ F)
    (honly : ∀ a b, F = a ++ updatesClose ++ b → b = [])
    (hP : ¬ updatesOpen <:+: P) :
    parseUpdates qt (P ++ F ++ S) = parseUpdates qt F ∧
      extractFragment (P ++ F ++ S) = some F ∧ extractFragment F = some F := by
  have h1 := extractFragment_surrounded P F S hbegin hend honly hP
  have h2 : extractFragment F = some F := by
    have := extractFragment_surrounded [] F [] hbegin hend honly (by decide)
    simpa using this
  refine ⟨?_, h1, h2⟩
  rw [parseUpdates_of_extract_some qt _ F h1, parseUpdates_of_extract_some qt _ F h2]

/-! ## Theorems: the loop of parseUpdates -/

/-- Reading on never makes the list of pending tokens longer, and makes it shorter
when a start element is found. -/
theorem readNextStartElementFrom_length (ts : List XmlToken) :
    (readNextStartElementFrom ts).2.pending.length ≤ ts.length ∧
      ((readNextStartElementFrom ts).1 = true →
        (readNextStartElementFrom ts).2.pending.length < ts.length) := by
  induction ts with
  | nil => simp [readNextStartElementFrom]
  | cons t ts ih =>
    unfold readNextStartElementFrom
    split_ifs
    · simp
    · simp
    · simp
    · exact ⟨Nat.le_succ_of_le ih.1, fun h => Nat.lt_succ_of_lt (ih.2 h)⟩

/-- The same for `readNextStartElement`. -/
theorem readNextStartElement_length (r : QXmlStreamReader) :
    r.readNextStartElement.2.pending.length ≤ r.pending.length ∧
      (r.readNextStartElement.1 = true →
        r.readNextStartElement.2.pending.length < r.pending.length) := by
  unfold QXmlStreamReader.readNextStartElement
  split_ifs
  · simp
  · exact readNextStartElementFrom_length r.pending

/-- The loop never runs out of fuel when it has more fuel than pending tokens, and its
result does not depend on how much more. -/
theorem parseLoop_fuel (qt : QtText) :
    ∀ (f1 f2 : Nat) (r : QXmlStreamReader) (acc : List UpdateInfo),
      r.pending.length < f1 → r.pending.length < f2 →
      parseLoop qt f1 r acc = parseLoop qt f2 r acc ∧ (parseLoop qt f1 r acc).isSome := by
  intro f1
  induction f1 with
  | zero => intro f2 r acc h; omega
  | succ f1 ih =>
    intro f2 r acc h1 h2
    cases f2 with
    | zero => omega
    | succ f2 =>
      have hl := readNextStartElement_length r
      rcases h : r.readNextStartElement with ⟨b, r1⟩
      rw [h] at hl
      cases b with
      | false => simp only [parseLoop, h]; split_ifs <;> simp
      | true =>
        have hl1 := readNextStartElement_length r1
        rcases h' : r1.readNextStartElement with ⟨b', r2⟩
        rw [h'] at hl1
        simp only [parseLoop, h, h']
        split_ifs
        · simp
        · simp
        · cases b' with
          | true => simp
          | false =>
            have hlt := hl.2 rfl
            simp only at hlt hl1 ⊢
            exact ih f2 r2 _ (by omega) (by omega)

/-- The loop, started by `parseUpdates`, always returns. -/
theorem parseLoop_isSome (qt : QtText) (r : QXmlStreamReader) (acc : List UpdateInfo) :
    (parseLoop qt (r.pending.length + 1) r acc).isSome :=
  (parseLoop_fuel qt _ _ r acc (Nat.lt_succ_self _) (Nat.lt_succ_self _)).2

/-- Tokens that are passed over do not change what `readNextStartElement` finds. -/
theorem readNextStartElementFrom_skip (sk ts : List XmlToken)
    (hsk : ∀ t ∈ sk, t.isSkipped = true) :
    readNextStartElementFrom (sk ++ ts) = readNextStartElementFrom ts := by
  induction sk with
  | nil => rfl
  | cons t sk ih =>
    have ht := hsk t (List.mem_cons_self _ _)
    simp only [XmlToken.isSkipped, decide_eq_true_eq] at ht
    have ih' := ih (fun u hu => hsk u (List.mem_cons_of_mem _ hu))
    simp only [List.cons_append, readNextStartElementFrom, ht.1, ht.2.1, ht.2.2.1, ht.2.2.2,
      if_false, or_self]
    exact ih'

/-- A start element is found at once. -/
theorem readNextStartElementFrom_start (t : XmlToken) (ts : List XmlToken)
    (ht : t.type = TokenType.StartElement) :
    readNextStartElementFrom (t :: ts) = (true, ⟨ts, t⟩) := by
  simp [readNextStartElementFrom, ht]

/-- An end element stops the search. -/
theorem readNextStartElementFrom_end (t : XmlToken) (ts : List XmlToken)
    (ht : t.type = TokenType.EndElement ∨ t.type = TokenType.EndDocument) :
    readNextStartElementFrom (t :: ts) = (false, ⟨ts, t⟩) := by
  rcases ht with ht | ht <;> simp [readNextStartElementFrom, ht]

/-- An `Invalid` token stops the search and leaves the reader in error. -/
theorem readNextStartElementFrom_invalid (t : XmlToken) (ts : List XmlToken)
    (ht : t.type = TokenType.Invalid) :
    readNextStartElementFrom (t :: ts) = (false, ⟨[], t⟩) := by
  simp [readNextStartElementFrom, ht]

/-- The loop looks at the token the reader holds only to see whether it is `Invalid`. -/
theorem parseLoop_current (qt : QtText) (fuel : Nat) (p : List XmlToken) (cur : XmlToken)
    (acc : List UpdateInfo) (hcur : cur.type ≠ TokenType.Invalid) :
    parseLoop qt fuel ⟨p, cur⟩ acc = parseLoop qt fuel ⟨p, noToken⟩ acc := by
  cases fuel with
  | zero => rfl
  | succ f =>
    simp only [parseLoop, QXmlStreamReader.readNextStartElement, hcur, if_false, noToken]
    rfl

/-- The loop on a reader without error, with enough fuel, is `loopOn`. -/
theorem parseLoop_eq_loopOn (qt : QtText) (fuel : Nat) (p : List XmlToken) (cur : XmlToken)
    (acc : List UpdateInfo) (hcur : cur.type ≠ TokenType.Invalid) (hfuel : p.length < fuel) :
    parseLoop qt fuel ⟨p, cur⟩ acc = loopOn qt p acc := by
  rw [parseLoop_current qt fuel p cur acc hcur]
  exact (parseLoop_fuel qt _ _ ⟨p, noToken⟩ acc hfuel (Nat.lt_succ_self _)).1

/-- One round of the loop, in terms of what `readNextStartElement` finds. -/
theorem loopOn_step (qt : QtText) (p : List XmlToken) (acc : List UpdateInfo) :
    loopOn qt p acc =
      match readNextStartElementFrom p with
      | (false, r) => if r.hasError then some none else some (some acc)
      | (true, r) =>
        if r.name ≠ updateName then some none
        else if acceptsAttributes qt r.attributes = false then some none
        else
          match r.readNextStartElement with
          | (true, _) => some none
          | (false, r2) => parseLoop qt p.length r2 (acc ++ [updateInfoOf qt r.attributes]) := by
  simp only [loopOn, parseLoop, QXmlStreamReader.readNextStartElement, noToken]
  simp only [reduceCtorEq, if_false]
  rcases readNextStartElementFrom p with ⟨b, r⟩
  cases b with
  | false => rfl
  | true =>
    simp only [acceptsAttributes, updateInfoOf]
    by_cases hn : r.name = updateName
    · simp only [hn, ne_eq, not_true_eq_false, if_false]
      by_cases h1 : (attributeValue r.attributes attrName).isEmpty = true
      · simp [h1]
      · by_cases h2 : (qt.versionFromString (attributeValue r.attributes attrVersion)).isEmpty = true
        · simp [h1, h2]
        · by_cases h3 : (qt.toULongLong (attributeValue r.attributes attrSize)).2 = false
          · simp [h1, h2, h3]
          · simp [h1, h2, h3]
    · simp [hn]

/-- The loop fails when the reader has nothing left to deliver. -/
theorem loopOn_nil (qt : QtText) (acc : List UpdateInfo) : loopOn qt [] acc = some none := by
  rw [loopOn_step]; rfl

/-- The loop fails at an `Invalid` token. -/
theorem loopOn_invalid (qt : QtText) (t : XmlToken) (ts : List XmlToken)
    (acc : List UpdateInfo) (ht : t.type = TokenType.Invalid) :
    loopOn qt (t :: ts) acc = some none := by
  rw [loopOn_step, readNextStartElementFrom_invalid t ts ht]
  simp [QXmlStreamReader.hasError, ht]

/-- The loop ends with the records read so far at an end element. -/
theorem loopOn_end (qt : QtText) (t : XmlToken) (ts : List XmlToken)
    (acc : List UpdateInfo) (ht : t.type = TokenType.EndElement) :
    loopOn qt (t :: ts) acc = some (some acc) := by
  rw [loopOn_step, readNextStartElementFrom_end t ts (Or.inl ht)]
  simp [QXmlStreamReader.hasError, ht]

/-- The loop passes over tokens that are no element boundaries. -/
theorem loopOn_skip (qt : QtText) (sk ts : List XmlToken) (acc : List UpdateInfo)
    (hsk : ∀ t ∈ sk, t.isSkipped = true) :
    loopOn qt (sk ++ ts) acc = loopOn qt ts acc := by
  induction sk with
  | nil => rfl
  | cons t sk ih =>
    have ht := hsk t (List.mem_cons_self _ _)
    have ih' := ih (fun u hu => hsk u (List.mem_cons_of_mem _ hu))
    rw [← ih']
    rw [loopOn_step, loopOn_step qt (sk ++ ts)]
    have h1 : readNextStartElementFrom (t :: sk ++ ts) = readNextStartElementFrom (sk ++ ts) :=
      readNextStartElementFrom_skip [t] (sk ++ ts) (by simpa using ht)
    rw [h1]
    rcases h : readNextStartElementFrom (sk ++ ts) with ⟨b, r⟩
    cases b with
    | false => rfl
    | true =>
      simp only
      split_ifs
      · rfl
      · rfl
      · have hl := (readNextStartElementFrom_length (sk ++ ts)).2 (by rw [h])
        rw [h] at hl
        have hl1 := (readNextStartElement_length r).1
        rcases h' : r.readNextStartElement with ⟨b', r2⟩
        rw [h'] at hl1
        cases b' with
        | true => rfl
        | false =>
          simp only at hl hl1 ⊢
          exact (parseLoop_fuel qt _ _ r2 _
            (by simp only [List.cons_append, List.length_cons]; omega) (by omega)).1

/-- The loop fails at a start element that is not named `update` or whose attributes
it does not accept. -/
theorem loopOn_reject (qt : QtText) (s : XmlToken) (ts : List XmlToken)
    (acc : List UpdateInfo) (hs : s.type = TokenType.StartElement)
    (hbad : s.name ≠ updateName ∨ acceptsAttributes qt s.attributes = false) :
    loopOn qt (s :: ts) acc = some none := by
  rw [loopOn_step, readNextStartElementFrom_start s ts hs]
  simp only [QXmlStreamReader.name, QXmlStreamReader.attributes]
  rcases hbad with h | h
  · simp [h]
  · simp [h]

/-- The loop fails at a start element that has a start element inside. -/
theorem loopOn_child (qt : QtText) (s c : XmlToken) (inner ts : List XmlToken)
    (acc : List UpdateInfo) (hs : s.type = TokenType.StartElement)
    (hinner : ∀ t ∈ inner, t.isSkipped = true) (hc : c.type = TokenType.StartElement) :
    loopOn qt (s :: (inner ++ c :: ts)) acc = some none := by
  rw [loopOn_step, readNextStartElementFrom_start s _ hs]
  simp only [QXmlStreamReader.name, QXmlStreamReader.attributes,
    QXmlStreamReader.readNextStartElement, hs, reduceCtorEq, if_false]
  rw [readNextStartElementFrom_skip inner _ hinner, readNextStartElementFrom_start c ts hc]
  split_ifs <;> rfl

/-- The loop appends the record of an accepted `update` element without element
children, and goes on after its end element. -/
theorem loopOn_leaf (qt : QtText) (s e : XmlToken) (inner ts : List XmlToken)
    (acc : List UpdateInfo) (hs : s.type = TokenType.StartElement)
    (hname : s.name = updateName) (hacc : acceptsAttributes qt s.attributes = true)
    (hinner : ∀ t ∈ inner, t.isSkipped = true) (he : e.type = TokenType.EndElement) :
    loopOn qt (s :: (inner ++ e :: ts)) acc =
      loopOn qt ts (acc ++ [updateInfoOf qt s.attributes]) := by
  rw [loopOn_step, readNextStartElementFrom_start s _ hs]
  simp only [QXmlStreamReader.name, QXmlStreamReader.attributes,
    QXmlStreamReader.readNextStartElement, hs, reduceCtorEq, if_false, hname, hacc,
    ne_eq, not_true_eq_false]
  rw [readNextStartElementFrom_skip inner _ hinner,
    readNextStartElementFrom_end e ts (Or.inl he)]
  simp only [Bool.true_eq_false, if_false]
  exact parseLoop_eq_loopOn qt _ ts e _ (by rw [he]; decide) (by simp; omega)

/-- The result of `parseUpdates` when the reader delivers, for the fragment, tokens
that are passed over, then the start of the root element, then `body`: the result of
the loop on `body`. -/
theorem parseUpdates_of_tokens (qt : QtText) (out frag : QString)
    (lead body : List XmlToken) (root : XmlToken)
    (hfrag : extractFragment out = some frag)
    (htok : qt.xmlTokens frag = lead ++ root :: body)
    (hlead : ∀ t ∈ lead, t.isSkipped = true) (hroot : root.type = TokenType.StartElement) :
    parseUpdates qt out = (loopOn qt body []).join := by
  rw [parseUpdates_of_extract_some qt out frag hfrag, htok]
  have h : QXmlStreamReader.readNextStartElement ⟨lead ++ root :: body, noToken⟩ =
      (true, ⟨body, root⟩) := by
    simp only [QXmlStreamReader.readNextStartElement, noToken, reduceCtorEq, if_false]
    rw [readNextStartElementFrom_skip lead _ hlead, readNextStartElementFrom_start root body hroot]
  rw [h]
  simp only
  rw [parseLoop_eq_loopOn qt _ body root [] (by rw [hroot]; decide) (Nat.lt_succ_self _)]

/-- A balanced run of tokens either holds no element at all or has a start element as
its first element boundary. -/
theorem Balanced.first_boundary {ts : List XmlToken} (h : Balanced ts) :
    (∀ t ∈ ts, t.isSkipped = true) ∨
      ∃ sk s tl, ts = sk ++ s :: tl ∧ (∀ t ∈ sk, t.isSkipped = true) ∧
        s.type = TokenType.StartElement := by
  induction h with
  | nil => left; simp
  | skip t ts ht _ ih =>
    rcases ih with hall | ⟨sk, s, tl, rfl, hsk, hs⟩
    · left
      intro u hu
      rcases List.mem_cons.mp hu with rfl | hu
      · exact ht
      · exact hall u hu
    · right
      refine ⟨t :: sk, s, tl, rfl, ?_, hs⟩
      intro u hu
      rcases List.mem_cons.mp hu with rfl | hu
      · exact ht
      · exact hsk u hu
  | element s e inner ts hs _ _ _ _ _ =>
    right
    exact ⟨[], s, inner ++ e :: ts, rfl, by simp, hs⟩

/-- Over a balanced run of tokens the loop either fails or reaches the tokens after
the run, with the records read so far and more. -/
theorem loopOn_balanced (qt : QtText) {body : List XmlToken} (h : Balanced body) :
    ∀ (rest : List XmlToken) (acc : List UpdateInfo),
      loopOn qt (body ++ rest) acc = some none ∨
        ∃ more, loopOn qt (body ++ rest) acc = loopOn qt rest (acc ++ more) := by
  induction h with
  | nil => intro rest acc; right; exact ⟨[], by simp⟩
  | skip t ts ht _ ih =>
    intro rest acc
    have hstep : loopOn qt (t :: ts ++ rest) acc = loopOn qt (ts ++ rest) acc :=
      loopOn_skip qt [t] (ts ++ rest) acc (by simpa using ht)
    rw [hstep]
    exact ih rest acc
  | element s e inner ts hs he hin _ _ ih =>
    intro rest acc
    have hshape : s :: (inner ++ e :: ts) ++ rest = s :: (inner ++ e :: (ts ++ rest)) := by
      simp
    rw [hshape]
    by_cases hok : s.name = updateName ∧ acceptsAttributes qt s.attributes = true
    · rcases hin.first_boundary with hall | ⟨sk, c, tl, rfl, hsk, hc⟩
      · rw [loopOn_leaf qt s e inner _ acc hs hok.1 hok.2 hall he]
        rcases ih rest (acc ++ [updateInfoOf qt s.attributes]) with h1 | ⟨more, h1⟩
        · left; exact h1
        · right
          exact ⟨updateInfoOf qt s.attributes :: more, by rw [h1]; simp⟩
      · left
        have : s :: ((sk ++ c :: tl) ++ e :: (ts ++ rest)) =
            s :: (sk ++ c :: (tl ++ e :: (ts ++ rest))) := by simp
        rw [this]
        exact loopOn_child qt s c sk _ acc hs hsk hc
    · left
      apply loopOn_reject qt s _ acc hs
      by_cases hn : s.name = updateName
      · right
        simpa using fun h => hok ⟨hn, h⟩
      · left; exact hn

/-- Every record the loop returns was accepted: its name is not empty and its version
is not null. -/
theorem parseLoop_entries (qt : QtText) :
    ∀ (fuel : Nat) (r : QXmlStreamReader) (acc catalog : List UpdateInfo),
      (∀ u ∈ acc, u.name ≠ [] ∧ u.version ≠ []) →
      parseLoop qt fuel r acc = some (some catalog) →
      ∀ u ∈ catalog, u.name ≠ [] ∧ u.version ≠ [] := by
  intro fuel
  induction fuel with
  | zero => intro r acc catalog _ h; simp [parseLoop] at h
  | succ f ih =>
    intro r acc catalog hacc h
    rcases h1 : r.readNextStartElement with ⟨b, r1⟩
    rcases h2 : r1.readNextStartElement with ⟨b', r2⟩
    simp only [parseLoop, h1, h2] at h
    cases b with
    | false =>
      simp only at h
      split_ifs at h
      · simp at h
      · simp only [Option.some.injEq] at h
        rw [← h]; exact hacc
    | true =>
      simp only at h
      split_ifs at h with hn hbad
      · simp at h
      · simp at h
      · rw [h2] at h
        cases b' with
        | true => simp at h
        | false =>
          simp only at h
          refine ih r2 _ catalog ?_ h
          intro u hu
          rcases List.mem_append.mp hu with hu | hu
          · exact hacc u hu
          · simp only [List.mem_singleton] at hu
            subst hu
            simp only [List.isEmpty_iff, not_or] at hbad
            exact ⟨hbad.1, hbad.2.1⟩

/-- The value of an attribute that the element does not have is the empty string. -/
theorem attributeValue_of_missing (attrs : List XmlAttribute) (n : QString)
    (h : ∀ a ∈ attrs, a.name ≠ n) : attributeValue attrs n = [] := by
  have : attrs.find? (fun a => decide (a.name = n)) = none := by
    rw [List.find?_eq_none]
    intro a ha
    simpa using h a ha
  simp [attributeValue, this]

/-- Every entry of a catalog that `parseUpdates` returns has a name that is not empty
and a version that is not null. -/
theorem parseUpdates_entries (qt : QtText) (out : QString) (catalog : List UpdateInfo)
    (h : parseUpdates qt out = some catalog) :
    ∀ u ∈ catalog, u.name ≠ [] ∧ u.version ≠ [] := by
  cases hf : extractFragment out with
  | none =>
    rw [parseUpdates_of_extract_none qt out hf] at h
    simp only [Option.some.injEq] at h
    subst h
    simp
  | some frag =>
    rw [parseUpdates_of_extract_some qt out frag hf] at h
    cases hl : parseLoop qt
        ((QXmlStreamReader.readNextStartElement ⟨qt.xmlTokens frag, noToken⟩).2.pending.length + 1)
        (QXmlStreamReader.readNextStartElement ⟨qt.xmlTokens frag, noToken⟩).2 [] with
    | none => rw [hl] at h; simp at h
    | some res =>
      rw [hl] at h
      have hres : res = some catalog := by simpa [Option.join] using h
      rw [hres] at hl
      exact parseLoop_entries qt _ _ [] catalog (by simp) hl

/-- C3: no partial catalogs.  Let the reader deliver, for the fragment of the captured
output, the start of the root element, then a balanced run of tokens `body` (any number
of complete elements, the valid records among them), then the start of an `update`
element whose name attribute is missing or empty, or whose version attribute is missing
or yields a null version, or whose size attribute is missing or is not converted by
`toULongLong`.  Then `parseUpdates` returns the parse failure.  And for every captured
output, when `parseUpdates` returns a catalog every entry of it has a non-empty name and
a non-null version. -/
theorem parseUpdates_no_partial_catalog (qt : QtText) (out frag : QString)
    (lead body rest : List XmlToken) (root : XmlToken) (attrs : List XmlAttribute)
    (hfrag : extractFragment out = some frag)
    (htok : qt.xmlTokens frag =
      lead ++ root :: (body ++ ⟨TokenType.StartElement, updateName, attrs⟩ :: rest))
    (hlead : ∀ t ∈ lead, t.isSkipped = true) (hroot : root.type = TokenType.StartElement)
    (hbody : Balanced body)
    (hnullVersion : qt.versionFromString [] = [])
    (hnoSize : (qt.toULongLong []).2 = false)
    (hbad :
      ((∀ a ∈ attrs, a.name ≠ attrName) ∨ attributeValue attrs attrName = []) ∨
      ((∀ a ∈ attrs, a.name ≠ attrVersion) ∨
        qt.versionFromString (attributeValue attrs attrVersion) = []) ∨
      ((∀ a ∈ attrs, a.name ≠ attrSize) ∨
        (qt.toULongLong (attributeValue attrs attrSize)).2 = false)) :
    parseUpdates qt out = none ∧
      ∀ out' catalog, parseUpdates qt out' = some catalog →
        ∀ u ∈ catalog, u.name ≠ [] ∧ u.version ≠ [] := by
  refine ⟨?_, fun out' catalog h => parseUpdates_entries qt out' catalog h⟩
  rw [parseUpdates_of_tokens qt out frag lead _ root hfrag htok hlead hroot]
  have hrej : acceptsAttributes qt attrs = false := by
    rcases hbad with (h | h) | (h | h) | (h | h)
    · simp [acceptsAttributes, attributeValue_of_missing attrs attrName h]
    · simp [acceptsAttributes, h]
    · simp [acceptsAttributes, attributeValue_of_missing attrs attrVersion h, hnullVersion]
    · simp [acceptsAttributes, h]
    · simp [acceptsAttributes, attributeValue_of_missing attrs attrSize h, hnoSize]
    · simp [acceptsAttributes, h]
  rcases loopOn_balanced qt hbody (⟨TokenType.StartElement, updateName, attrs⟩ :: rest) [] with
    h | ⟨more, h⟩
  · rw [h]; rfl
  · rw [h, loopOn_reject qt _ rest _ rfl (Or.inr hrej)]; rfl

/-- C4: a record with a nested child element.  Let the reader deliver, for the fragment
of the captured output, the start of the root element, then a balanced run of tokens
`body`, then the start of an `update` element (with whatever attributes, the valid ones
included) and, before the end of that element, the start of another element.  Then
`parseUpdates` returns the parse failure. -/
theorem parseUpdates_nested_child (qt : QtText) (out frag : QString)
    (lead body inner rest : List XmlToken) (root child : XmlToken)
    (attrs : List XmlAttribute)
    (hfrag : extractFragment out = some frag)
    (htok : qt.xmlTokens frag =
      lead ++ root :: (body ++ ⟨TokenType.StartElement, updateName, attrs⟩ ::
        (inner ++ child :: rest)))
    (hlead : ∀ t ∈ lead, t.isSkipped = true) (hroot : root.type = TokenType.StartElement)
    (hbody : Balanced body) (hinner : ∀ t ∈ inner, t.isSkipped = true)
    (hchild : child.type = TokenType.StartElement) :
    parseUpdates qt out = none := by
  rw [parseUpdates_of_tokens qt out frag lead _ root hfrag htok hlead hroot]
  rcases loopOn_balanced qt hbody
      (⟨TokenType.StartElement, updateName, attrs⟩ :: (inner ++ child :: rest)) [] with
    h | ⟨more, h⟩
  · rw [h]; rfl
  · rw [h, loopOn_child qt _ child inner rest _ rfl hinner hchild]; rfl

/-- When the closing marker does not occur in `F0`, its only occurrence in
`F0 ++ updatesClose` is the one at the end. -/
theorem only_occurrence_at_end (F0 : QString) (h : ¬ updatesClose <:+: F0) :
    ∀ a b, F0 ++ updatesClose = a ++ updatesClose ++ b → b = [] := by
  intro a b hab
  have hle := first_occurrence_of_marker updatesClose _ rfl (by decide) F0 [] a b h
    (by simpa using hab)
  have hlen := congrArg List.length hab
  simp only [List.length_append] at hlen
  exact List.length_eq_zero.mp (by omega)

/-- Witness for C1: an output without markers, read with the concrete reader. -/
theorem parseUpdates_missing_marker_witness :
    parseUpdates qt5 "There are currently no updates available.".toList = some [] :=
  parseUpdates_missing_marker qt5 _ (Or.inl (by decide))

/-- Witness for C3: the empty-name record of the spec, read with the concrete reader. -/
theorem parseUpdates_no_partial_catalog_witness :
    parseUpdates qt5
      "<updates><update name=\"\" version=\"1.0\" size=\"10\"/></updates>".toList = none :=
  (parseUpdates_no_partial_catalog qt5 _
    "<updates><update name=\"\" version=\"1.0\" size=\"10\"/></updates>".toList
    [⟨TokenType.StartDocument, [], []⟩] []
    [⟨TokenType.EndElement, updateName, []⟩, ⟨TokenType.EndElement, updatesName, []⟩,
      ⟨TokenType.EndDocument, [], []⟩]
    ⟨TokenType.StartElement, updatesName, []⟩
    [⟨attrName, []⟩, ⟨attrVersion, "1.0".toList⟩, ⟨attrSize, "10".toList⟩]
    (by decide) (by decide) (by decide) rfl Balanced.nil (by decide) (by decide)
    (Or.inl (Or.inr (by decide)))).1

/-- Witness for C4: the non-leaf record of the spec, read with the concrete reader. -/
theorem parseUpdates_nested_child_witness :
    parseUpdates qt5
      "<updates><update name=\"A\" version=\"1.0\" size=\"10\"><x/></update></updates>".toList
      = none :=
  parseUpdates_nested_child qt5 _
    "<updates><update name=\"A\" version=\"1.0\" size=\"10\"><x/></update></updates>".toList
    [⟨TokenType.StartDocument, [], []⟩] [] []
    [⟨TokenType.EndElement, ['x'], []⟩, ⟨TokenType.EndElement, updateName, []⟩,
      ⟨TokenType.EndElement, updatesName, []⟩, ⟨TokenType.EndDocument, [], []⟩]
    ⟨TokenType.StartElement, updatesName, []⟩ ⟨TokenType.StartElement, ['x'], []⟩
    [⟨attrName, ['A']⟩, ⟨attrVersion, "1.0".toList⟩, ⟨attrSize, "10".toList⟩]
    (by decide) (by decide) (by decide) rfl Balanced.nil (by decide) rfl

/-- Witness for C5: a fragment between a line of log and a trailing line. -/
theorem parseUpdates_surrounding_text_witness :
    parseUpdates qt5
      ("[0] Warning: ".toList ++
        "<updates><update name=\"A\" version=\"1.0\" size=\"10\"/></updates>".toList ++
        "\nbye".toList) =
      parseUpdates qt5
        "<updates><update name=\"A\" version=\"1.0\" size=\"10\"/></updates>".toList :=
  (parseUpdates_surrounding_text qt5 "[0] Warning: ".toList
    "<updates><update name=\"A\" version=\"1.0\" size=\"10\"/></updates>".toList
    "\nbye".toList (by decide) (by decide)
    (only_occurrence_at_end
      "<updates><update name=\"A\" version=\"1.0\" size=\"10\"/>".toList (by decide))
    (by decide)).1

/-! ## Theorems: decimal numerals and the conversions -/

/-- The digit characters: each is a decimal digit and has its own value. -/
theorem digitChar_spec : ∀ k < 10, (Nat.digitChar k).isDigit = true ∧
    digitValue (Nat.digitChar k) = k := by decide

/-- What `Nat.toDigitsCore` puts in front of the digits it was given: a non-empty
string of decimal digits whose value is the number. -/
theorem toDigitsCore_spec : ∀ (fuel n : Nat) (ds : List Char), n < fuel →
    ∃ xs, Nat.toDigitsCore 10 fuel n ds = xs ++ ds ∧ xs ≠ [] ∧
      (∀ c ∈ xs, c.isDigit = true) ∧
      ∀ a, xs.foldl (fun a c => a * 10 + digitValue c) a = a * 10 ^ xs.length + n := by
  intro fuel
  induction fuel with
  | zero => intro n ds h; omega
  | succ fuel ih =>
    intro n ds h
    have hd := digitChar_spec (n % 10) (Nat.mod_lt _ (by decide))
    by_cases h0 : n / 10 = 0
    · refine ⟨[Nat.digitChar (n % 10)], ?_, by simp, ?_, ?_⟩
      · simp [Nat.toDigitsCore, h0]
      · simpa using hd.1
      · intro a
        have hmod : n % 10 = n := Nat.mod_eq_of_lt (by omega)
        simp only [List.foldl_cons, List.foldl_nil, List.length_singleton, pow_one]
        rw [hd.2, hmod]
    · obtain ⟨ys, hys, _, hdig, hval⟩ :=
        ih (n / 10) (Nat.digitChar (n % 10) :: ds) (by omega)
      refine ⟨ys ++ [Nat.digitChar (n % 10)], ?_, by simp, ?_, ?_⟩
      · simp [Nat.toDigitsCore, h0, hys]
      · intro c hc
        rcases List.mem_append.mp hc with hc | hc
        · exact hdig c hc
        · simp only [List.mem_singleton] at hc
          rw [hc]; exact hd.1
      · intro a
        rw [List.foldl_append, hval a]
        simp only [List.foldl_cons, List.foldl_nil, hd.2, List.length_append,
          List.length_singleton, pow_succ]
        have := Nat.div_add_mod n 10
        nlinarith [this]

/-- The decimal numeral of a number is a non-empty string of digits with that value. -/
theorem renderNat_spec (n : Nat) :
    renderNat n ≠ [] ∧ (∀ c ∈ renderNat n, c.isDigit = true) ∧
      digitsValue (renderNat n) = n := by
  obtain ⟨xs, hxs, hne, hdig, hval⟩ := toDigitsCore_spec (n + 1) n [] (Nat.lt_succ_self n)
  have : renderNat n = xs := by simpa [renderNat, Nat.toDigits] using hxs
  rw [this]
  refine ⟨hne, hdig, ?_⟩
  simpa [digitsValue] using hval 0

/-- Reading as long as `p` holds stops at the first character where it fails. -/
theorem takeWhile_append_stop (p : Char → Bool) (xs rest : List Char)
    (hxs : ∀ c ∈ xs, p c = true) (hrest : ∀ c r, rest = c :: r → p c = false) :
    (xs ++ rest).takeWhile p = xs ∧ (xs ++ rest).dropWhile p = rest := by
  induction xs with
  | nil =>
    cases rest with
    | nil => simp
    | cons c r => simp [hrest c r rfl]
  | cons x xs ih =>
    have hx := hxs x (List.mem_cons_self _ _)
    have ih' := ih (fun c hc => hxs c (List.mem_cons_of_mem _ hc))
    simp [hx, ih'.1, ih'.2]

/-- A decimal digit is no white space and no sign. -/
theorem isDigit_not_space_sign (c : Char) (h : c.isDigit = true) :
    isAsciiSpace c = false ∧ isQSpace c = false ∧ c ≠ '-' ∧ c ≠ '+' := by
  simp only [Char.isDigit, Bool.and_eq_true, decide_eq_true_eq] at h
  have h1 : 48 ≤ c.toNat := by
    have := h.1; simpa [Char.toNat, UInt32.le_def] using this
  have h2 : c.toNat ≤ 57 := by
    have := h.2; simpa [Char.toNat, UInt32.le_def] using this
  refine ⟨?_, ?_, ?_, ?_⟩
  · simp only [isAsciiSpace, Bool.or_eq_false_iff, Bool.and_eq_false_iff, decide_eq_false_iff_not]
    constructor
    · rintro rfl; simp at h1
    · right; omega
  · simp only [isQSpace, isAsciiSpace, Bool.or_eq_false_iff, Bool.and_eq_false_iff,
      decide_eq_false_iff_not]
    refine ⟨⟨⟨⟨⟨⟨⟨⟨⟨⟨?_, ?_⟩, ?_⟩, ?_⟩, ?_⟩, ?_⟩, ?_⟩, ?_⟩, ?_⟩, ?_⟩, ?_⟩ <;>
      first
      | omega
      | (rintro rfl; simp at h1)
  · rintro rfl; simp at h1
  · rintro rfl; simp at h1

/-- Nothing is dropped from a string whose first character fails the test. -/
theorem dropWhile_of_head (p : Char → Bool) (xs : List Char)
    (h : ∀ c r, xs = c :: r → p c = false) : xs.dropWhile p = xs := by
  cases xs with
  | nil => rfl
  | cons c r => simp [h c r rfl]

/-- The function `qstrtoull` reads a decimal numeral that is followed by no digit, when its value
fits in 64 bits. -/
theorem qstrtoull_renderNat (n : Nat) (rest : QString) (hn : n ≤ 2 ^ 64 - 1)
    (hrest : ∀ c r, rest = c :: r → c.isDigit = false) :
    qstrtoull (renderNat n ++ rest) = some (n, rest) := by
  obtain ⟨hne, hdig, hval⟩ := renderNat_spec n
  obtain ⟨d, ds, hds⟩ := List.exists_cons_of_ne_nil hne
  have hd := isDigit_not_space_sign d (hdig d (by rw [hds]; exact List.mem_cons_self _ _))
  have hdrop : (renderNat n ++ rest).dropWhile isAsciiSpace = renderNat n ++ rest := by
    apply dropWhile_of_head
    intro c r hcr
    rw [hds] at hcr
    simp only [List.cons_append, List.cons.injEq] at hcr
    rw [← hcr.1]; exact hd.1
  have hhead : (renderNat n ++ rest).head? = some d := by rw [hds]; rfl
  have hsplit := takeWhile_append_stop Char.isDigit (renderNat n) rest hdig hrest
  have hminus : ¬ (some d = some '-') := by simpa using hd.2.2.1
  have hplus : ¬ (some d = some '+') := by simpa using hd.2.2.2
  have hfit : ¬ (2 ^ 64 - 1 < n) := by omega
  simp only [qstrtoull, hdrop, hhead, hminus, hplus, if_false, hsplit.1, hsplit.2, hne, hval,
    hfit]

/-- The dotted numeral of a version that is not null is not empty. -/
theorem renderVersion_ne_nil (a : Nat) (v : List Nat) : renderVersion (a :: v) ≠ [] := by
  cases v with
  | nil => exact (renderNat_spec a).1
  | cons b v =>
    simp only [renderVersion]
    intro h
    have := congrArg List.length h
    simp at this

/-- The segment loop reads back the dotted numeral of a version whose segments are at
most `2^31 - 1`. -/
theorem versionSegments_render : ∀ (v : List Nat) (a : Nat) (fuel : Nat),
    (∀ x ∈ a :: v, x ≤ 2147483647) → (renderVersion (a :: v)).length ≤ fuel →
    versionSegments fuel (renderVersion (a :: v)) = a :: v := by
  intro v
  induction v with
  | nil =>
    intro a fuel hseg hfuel
    have hne := (renderNat_spec a).1
    have ha := hseg a (List.mem_cons_self _ _)
    cases fuel with
    | zero =>
      simp only [renderVersion, Nat.le_zero, List.length_eq_zero] at hfuel
      exact absurd hfuel hne
    | succ f =>
      have h := qstrtoull_renderNat a [] (by omega) (by simp)
      rw [List.append_nil] at h
      have hbig : ¬ (2147483647 < a) := by omega
      simp [renderVersion, versionSegments, h, hbig]
  | cons b v ih =>
    intro a fuel hseg hfuel
    have ha := hseg a (List.mem_cons_self _ _)
    have hR := renderVersion_ne_nil b v
    cases fuel with
    | zero =>
      simp [renderVersion] at hfuel
    | succ f =>
      have h := qstrtoull_renderNat a ('.' :: renderVersion (b :: v)) (by omega)
        (by intro c r hcr; simp only [List.cons.injEq] at hcr; rw [← hcr.1]; decide)
      have hbig : ¬ (2147483647 < a) := by omega
      have hlen : (renderVersion (b :: v)).length ≤ f := by
        simp only [renderVersion, List.length_append, List.length_cons] at hfuel
        omega
      have hrec := ih b f (fun x hx => hseg x (List.mem_cons_of_mem _ hx)) hlen
      simp only [renderVersion, versionSegments, h, hbig, if_false, List.head?_cons,
        List.tail_cons, ne_eq, hR, not_false_eq_true, and_self, if_true, hrec]

/-- The function `QVersionNumber::fromString` reads back the dotted numeral of a version that is not
null and whose segments are at most `2^31 - 1`. -/
theorem versionFromString_render (v : List Nat) (hv : v ≠ [])
    (hseg : ∀ x ∈ v, x ≤ 2147483647) : versionFromString (renderVersion v) = v := by
  obtain ⟨a, w, rfl⟩ := List.exists_cons_of_ne_nil hv
  exact versionSegments_render w a _ hseg (Nat.le_refl _)

/-- The function `toULongLong` reads back the decimal numeral of a number that fits in 64 bits. -/
theorem toULongLong_render (n : Nat) (hn : n ≤ 2 ^ 64 - 1) :
    toULongLong (renderNat n) = (n, true) := by
  obtain ⟨hne, hdig, _⟩ := renderNat_spec n
  have h1 : (renderNat n).dropWhile isQSpace = renderNat n := by
    apply dropWhile_of_head
    intro c r hcr
    exact (isDigit_not_space_sign c (hdig c (by rw [hcr]; exact List.mem_cons_self _ _))).2.1
  have h2 : (renderNat n).reverse.dropWhile isQSpace = (renderNat n).reverse := by
    apply dropWhile_of_head
    intro c r hcr
    have hc : c ∈ renderNat n := by
      rw [← List.mem_reverse, hcr]; exact List.mem_cons_self _ _
    exact (isDigit_not_space_sign c (hdig c hc)).2.1
  have h3 : trimQSpace (renderNat n) = renderNat n := by
    simp [trimQSpace, h1, h2]
  have h4 := qstrtoull_renderNat n [] hn (by simp)
  rw [List.append_nil] at h4
  simp [toULongLong, h3, h4]

/-! ## Theorems: the concrete reader on the text of a catalog -/

/-- An attribute value made of characters that are delivered unchanged is read up to
the closing quote. -/
theorem readAttValue_plain (v rest : QString) (hv : ∀ c ∈ v, isPlainChar c = true) :
    readAttValue '"' (v ++ '"' :: rest) = some (v, rest) := by
  induction v with
  | nil => simp [readAttValue]
  | cons c v ih =>
    have hc := hv c (List.mem_cons_self _ _)
    have ih' := ih (fun x hx => hv x (List.mem_cons_of_mem _ hx))
    simp only [isPlainChar, Bool.and_eq_true, decide_eq_true_eq, Bool.not_eq_true'] at hc
    obtain ⟨⟨⟨⟨⟨⟨h1, h2⟩, h3⟩, h4⟩, h5⟩, h6⟩, h7⟩ := hc
    have hsp : isXmlSpace c = true → c = ' ' := by
      simp [isXmlSpace, h4, h5, h6]
    rw [List.cons_append, readAttValue]
    · simp only [h1, h2, h3, h7, if_false, ih', or_self, Bool.false_eq_true]
      by_cases hs : isXmlSpace c = true
      · simp [hs, hsp hs]
      · simp [hs]
    · intro cs hcs
      exact fun _ => h6 hcs

/-- Nothing is dropped when the first character fails the test. -/
theorem dropWhile_cons_stop (p : Char → Bool) (c : Char) (xs : List Char)
    (h : p c = false) : (c :: xs).dropWhile p = c :: xs :=
  dropWhile_of_head p _ (by intro d r hd; simp only [List.cons.injEq] at hd; rw [← hd.1]; exact h)

/-- The end of an empty-element tag. -/
theorem readAttributes_end (fuel : Nat) (rest : QString) (acc : List XmlAttribute) :
    readAttributes (fuel + 1) ('/' :: '>' :: rest) acc = some (acc, true, rest) := by
  rw [readAttributes, dropWhile_cons_stop isXmlSpace '/' _ (by decide)]
  simp

/-- One attribute, written after one space with its value in double quotes, is read and
added to the attributes read so far. -/
theorem readAttributes_attribute (fuel : Nat) (c : Char) (an v rest : QString)
    (acc : List XmlAttribute)
    (hc : isNameStartChar c = true) (hname : ∀ x ∈ c :: an, isNameChar x = true)
    (hnew : ∀ a ∈ acc, a.name ≠ c :: an) (hv : ∀ x ∈ v, isPlainChar x = true) :
    readAttributes (fuel + 1) (' ' :: (c :: an) ++ '=' :: '"' :: (v ++ '"' :: rest)) acc =
      readAttributes fuel rest (acc ++ [⟨c :: an, v⟩]) := by
  have hcs : isXmlSpace c = false := by
    simp only [isNameStartChar, Bool.or_eq_true, decide_eq_true_eq] at hc
    rcases hc with hc | rfl
    · simp only [isXmlSpace, Bool.or_eq_false_iff, decide_eq_false_iff_not]
      refine ⟨⟨⟨?_, ?_⟩, ?_⟩, ?_⟩ <;> rintro rfl <;> revert hc <;> decide
    · decide
  have hgt : c ≠ '>' := by rintro rfl; revert hc; decide
  have hsl : c ≠ '/' := by rintro rfl; revert hc; decide
  have hdrop : (' ' :: (c :: an) ++ '=' :: '"' :: (v ++ '"' :: rest)).dropWhile isXmlSpace =
      c :: (an ++ '=' :: '"' :: (v ++ '"' :: rest)) := by
    rw [List.cons_append, List.dropWhile_cons_of_pos (by decide), List.cons_append,
      dropWhile_cons_stop isXmlSpace c _ hcs]
  have hsplit := takeWhile_append_stop isNameChar (c :: an) ('=' :: '"' :: (v ++ '"' :: rest))
    hname (by intro x r hx; simp only [List.cons.injEq] at hx; rw [← hx.1]; decide)
  rw [List.cons_append] at hsplit
  have hdup : ¬ ∃ x ∈ acc, x.name = c :: an := by
    rintro ⟨x, hx, hxn⟩; exact hnew x hx hxn
  rw [readAttributes, hdrop]
  split
  · rename_i h; simp only [List.cons.injEq] at h; exact absurd h.1 hgt
  · rename_i h; simp only [List.cons.injEq] at h; exact absurd h.1 hsl
  · rename_i c' rest' _ _ h
    simp only [List.cons.injEq] at h
    obtain ⟨rfl, rfl⟩ := h
    simp only [List.length_cons, List.length_append, hc, hsplit.1, hsplit.2,
      dropWhile_cons_stop isXmlSpace '=' _ (by decide : isXmlSpace '=' = false),
      dropWhile_cons_stop isXmlSpace '"' _ (by decide : isXmlSpace '"' = false),
      readAttValue_plain v rest hv, List.any_eq_true, decide_eq_true_eq, hdup]
    simp only [Bool.not_true, Bool.false_eq_true, if_false, true_or, if_true]
    split_ifs with hlen
    · omega
    · rfl
  · rename_i h; simp at h

/-- The text of a record, laid out as the reader takes it apart. -/
theorem renderUpdate_shape (u : UpdateInfo) (rest : QString) :
    renderUpdate u ++ rest =
      '<' :: (updateName ++
        (' ' :: attrName ++ '=' :: '"' :: (u.name ++ '"' ::
        (' ' :: attrVersion ++ '=' :: '"' :: (renderVersion u.version ++ '"' ::
        (' ' :: attrSize ++ '=' :: '"' :: (renderNat u.size ++ '"' ::
        ('/' :: '>' :: rest)))))))) := by
  have e1 : "<update name=\"".toList = '<' :: (updateName ++ (' ' :: attrName ++ ['=', '"'])) := rfl
  have e2 : "\" version=\"".toList = '"' :: (' ' :: attrVersion ++ ['=', '"']) := rfl
  have e3 : "\" size=\"".toList = '"' :: (' ' :: attrSize ++ ['=', '"']) := rfl
  have e4 : "\"/>".toList = ['"', '/', '>'] := rfl
  simp only [renderUpdate, e1, e2, e3, e4, List.append_assoc, List.cons_append,
    List.nil_append]

/-- The digits of a decimal numeral are delivered unchanged. -/
theorem renderNat_plain (n : Nat) : ∀ c ∈ renderNat n, isPlainChar c = true := by
  intro c hc
  have hd := (renderNat_spec n).2.1 c hc
  simp only [Char.isDigit, Bool.and_eq_true, decide_eq_true_eq] at hd
  have h1 : 48 ≤ c.toNat := by
    have := hd.1; simpa [Char.toNat, UInt32.le_def] using this
  have h2 : c.toNat ≤ 57 := by
    have := hd.2; simpa [Char.toNat, UInt32.le_def] using this
  simp only [isPlainChar, isIllegalChar, isXmlSpace, Bool.and_eq_true, decide_eq_true_eq,
    Bool.not_eq_true', Bool.or_eq_false_iff, Bool.and_eq_false_iff, decide_eq_false_iff_not,
    ne_eq]
  refine ⟨⟨⟨⟨⟨⟨?_, ?_⟩, ?_⟩, ?_⟩, ?_⟩, ?_⟩, ⟨⟨?_, ?_⟩, ?_⟩⟩ <;>
    first
    | omega
    | (rintro rfl; revert h1; decide)
    | (rintro rfl; revert h2; decide)

/-- The characters of a dotted numeral are delivered unchanged. -/
theorem renderVersion_plain : ∀ (v : List Nat), ∀ c ∈ renderVersion v, isPlainChar c = true := by
  intro v
  induction v with
  | nil => simp [renderVersion]
  | cons a v ih =>
    cases v with
    | nil => simpa [renderVersion] using renderNat_plain a
    | cons b v =>
      intro c hc
      simp only [renderVersion, List.mem_append, List.mem_cons] at hc
      rcases hc with hc | rfl | hc
      · exact renderNat_plain a c hc
      · decide
      · exact ih c hc

/-- The three attributes of a written record and the end of its tag are read as the
attributes of the record. -/
theorem readAttributes_record (fuel : Nat) (u : UpdateInfo) (rest : QString)
    (hname : ∀ c ∈ u.name, isPlainChar c = true) :
    readAttributes (fuel + 4)
      (' ' :: attrName ++ '=' :: '"' :: (u.name ++ '"' ::
        (' ' :: attrVersion ++ '=' :: '"' :: (renderVersion u.version ++ '"' ::
        (' ' :: attrSize ++ '=' :: '"' :: (renderNat u.size ++ '"' ::
        ('/' :: '>' :: rest))))))) [] =
      some (recordAttributes u, true, rest) := by
  have hn : attrName = 'n' :: ['a', 'm', 'e'] := rfl
  have hv : attrVersion = 'v' :: ['e', 'r', 's', 'i', 'o', 'n'] := rfl
  have hs : attrSize = 's' :: ['i', 'z', 'e'] := rfl
  rw [hn,
    readAttributes_attribute (fuel + 3) 'n' _ u.name _ [] (by decide) (by decide) (by simp) hname,
    hv,
    readAttributes_attribute (fuel + 2) 'v' _ (renderVersion u.version) _ _ (by decide)
      (by decide) (by simp) (renderVersion_plain _),
    hs,
    readAttributes_attribute (fuel + 1) 's' _ (renderNat u.size) _ _ (by decide)
      (by decide) (by simp) (renderNat_plain _),
    readAttributes_end]
  rfl

/-- The text of a written record, inside an open element, gives a start element with
the attributes of the record and an end element. -/
theorem xmlTokensFrom_record (fuel : Nat) (top : QString) (stack : List QString)
    (u : UpdateInfo) (rest : QString) (hname : ∀ c ∈ u.name, isPlainChar c = true) :
    xmlTokensFrom (fuel + 5) (top :: stack) true (renderUpdate u ++ rest) =
      ⟨TokenType.StartElement, updateName, recordAttributes u⟩ ::
        ⟨TokenType.EndElement, updateName, []⟩ ::
        xmlTokensFrom (fuel + 4) (top :: stack) true rest := by
  have hsplit := takeWhile_append_stop isNameChar updateName
    (' ' :: attrName ++ '=' :: '"' :: (u.name ++ '"' ::
        (' ' :: attrVersion ++ '=' :: '"' :: (renderVersion u.version ++ '"' ::
        (' ' :: attrSize ++ '=' :: '"' :: (renderNat u.size ++ '"' ::
        ('/' :: '>' :: rest))))))) (by decide)
    (by intro x r hx; simp only [List.cons_append, List.cons.injEq] at hx; rw [← hx.1]; decide)
  rw [renderUpdate_shape]
  have hu : updateName = 'u' :: ['p', 'd', 'a', 't', 'e'] := rfl
  rw [hu] at hsplit ⊢
  rw [List.cons_append] at hsplit ⊢
  rw [xmlTokensFrom]
  · simp only [hsplit.1, hsplit.2]
    rw [readAttributes_record fuel u rest hname]
    have hns : isNameStartChar 'u' = true := by decide
    simp [hns]
  · decide

/-- The tokens of the text of the records followed by the closing marker, read inside
the root element. -/
theorem xmlTokensFrom_records : ∀ (us : List UpdateInfo) (fuel : Nat),
    (∀ u ∈ us, ∀ c ∈ u.name, isPlainChar c = true) →
    ((us.map renderUpdate).flatten ++ updatesClose).length < fuel →
    xmlTokensFrom fuel [updatesName] true ((us.map renderUpdate).flatten ++ updatesClose) =
      recordTokens us ++
        [⟨TokenType.EndElement, updatesName, []⟩, ⟨TokenType.EndDocument, [], []⟩] := by
  intro us
  induction us with
  | nil =>
    intro fuel _ hfuel
    obtain ⟨f, rfl⟩ : ∃ f, fuel = f + 2 := ⟨fuel - 2, by
      simp [updatesClose] at hfuel; omega⟩
    have hsplit := takeWhile_append_stop isNameChar updatesName ['>'] (by decide)
      (by intro x r hx; simp only [List.cons.injEq] at hx; rw [← hx.1]; decide)
    have hc : updatesClose = '<' :: '/' :: (updatesName ++ ['>']) := rfl
    simp only [List.map_nil, List.flatten_nil, List.nil_append, recordTokens]
    rw [hc, xmlTokensFrom.eq_def]
    simp only [hsplit.1, hsplit.2, dropWhile_cons_stop isXmlSpace '>' [] (by decide), if_true]
    simp [xmlTokensFrom]
  | cons u us ih =>
    intro fuel hplain hfuel
    have hlen : 5 ≤ (renderUpdate u).length := by
      simp [renderUpdate]
    simp only [List.map_cons, List.flatten_cons, List.append_assoc, List.length_append]
      at hfuel ⊢
    obtain ⟨f, rfl⟩ : ∃ f, fuel = f + 5 := ⟨fuel - 5, by omega⟩
    rw [xmlTokensFrom_record f updatesName [] u _
      (hplain u (List.mem_cons_self _ _))]
    rw [ih (f + 4) (fun v hv => hplain v (List.mem_cons_of_mem _ hv))
      (by simp only [List.length_append]; omega)]
    simp [recordTokens]

/-- The tokens of the text of a catalog, read from its start. -/
theorem xmlTokensFrom_renderCatalog (us : List UpdateInfo) (f : Nat)
    (hplain : ∀ u ∈ us, ∀ c ∈ u.name, isPlainChar c = true)
    (hfuel : ((us.map renderUpdate).flatten ++ updatesClose).length < f + 1) :
    xmlTokensFrom (f + 2) [] false (renderCatalog us) =
      ⟨TokenType.StartElement, updatesName, []⟩ ::
        (recordTokens us ++
          [⟨TokenType.EndElement, updatesName, []⟩, ⟨TokenType.EndDocument, [], []⟩]) := by
  have hsplit := takeWhile_append_stop isNameChar updatesName
    ('>' :: ((us.map renderUpdate).flatten ++ updatesClose)) (by decide)
    (by intro x r hx; simp only [List.cons.injEq] at hx; rw [← hx.1]; decide)
  have ho : renderCatalog us =
      '<' :: 'u' :: (['p', 'd', 'a', 't', 'e', 's'] ++
        '>' :: ((us.map renderUpdate).flatten ++ updatesClose)) := by
    simp [renderCatalog, updatesOpen]
  have hu : updatesName = 'u' :: ['p', 'd', 'a', 't', 'e', 's'] := rfl
  rw [hu, List.cons_append] at hsplit
  rw [ho, xmlTokensFrom]
  · simp only [hsplit.1, hsplit.2]
    rw [readAttributes, dropWhile_cons_stop isXmlSpace '>' _ (by decide)]
    have hns : isNameStartChar 'u' = true := by decide
    simp only [List.isEmpty_nil, Bool.false_eq_true, and_false, if_false, hns, Bool.not_true]
    rw [← hu, xmlTokensFrom_records us _ hplain hfuel]
  · decide

/-- The tokens the concrete reader delivers for the text of a catalog. -/
theorem xmlTokens_renderCatalog (us : List UpdateInfo)
    (hplain : ∀ u ∈ us, ∀ c ∈ u.name, isPlainChar c = true) :
    xmlTokens (renderCatalog us) =
      ⟨TokenType.StartDocument, [], []⟩ :: ⟨TokenType.StartElement, updatesName, []⟩ ::
        (recordTokens us ++
          [⟨TokenType.EndElement, updatesName, []⟩, ⟨TokenType.EndDocument, [], []⟩]) := by
  have hlen : (renderCatalog us).length + 1 =
      (((us.map renderUpdate).flatten ++ updatesClose).length + 8) + 2 := by
    simp [renderCatalog, updatesOpen]
  rw [xmlTokens, hlen, xmlTokensFrom_renderCatalog us _ hplain (by omega)]

/-- The attributes of a written record give the record back. -/
theorem updateInfoOf_recordAttributes (u : UpdateInfo) (hu : u.Writable) :
    updateInfoOf qt5 (recordAttributes u) = u ∧
      acceptsAttributes qt5 (recordAttributes u) = true := by
  obtain ⟨hname, _, hver, hseg, hsize⟩ := hu
  have h1 : attributeValue (recordAttributes u) attrName = u.name := by
    simp [attributeValue, recordAttributes, List.find?]
  have h2 : attributeValue (recordAttributes u) attrVersion = renderVersion u.version := by
    simp [attributeValue, recordAttributes, List.find?, attrName, attrVersion]
  have h3 : attributeValue (recordAttributes u) attrSize = renderNat u.size := by
    simp [attributeValue, recordAttributes, List.find?, attrName, attrVersion, attrSize]
  have h4 := versionFromString_render u.version hver hseg
  have h5 := toULongLong_render u.size hsize
  constructor
  · simp only [updateInfoOf, h1, h2, h3, qt5, h4, h5]
  · simp [acceptsAttributes, h1, h2, h3, qt5, h4, h5, hname, hver]

/-- The loop reads the records back from the tokens of their text. -/
theorem loopOn_recordTokens : ∀ (us acc : List UpdateInfo) (rest : List XmlToken),
    (∀ u ∈ us, u.Writable) →
    loopOn qt5 (recordTokens us ++ rest) acc = loopOn qt5 rest (acc ++ us) := by
  intro us
  induction us with
  | nil => intro acc rest _; simp [recordTokens]
  | cons u us ih =>
    intro acc rest h
    have hu := updateInfoOf_recordAttributes u (h u (List.mem_cons_self _ _))
    have hshape : recordTokens (u :: us) ++ rest =
        ⟨TokenType.StartElement, updateName, recordAttributes u⟩ ::
          ([] ++ ⟨TokenType.EndElement, updateName, []⟩ :: (recordTokens us ++ rest)) := by
      simp [recordTokens]
    rw [hshape, loopOn_leaf qt5 _ _ [] _ acc rfl rfl hu.2 (by simp) rfl, hu.1,
      ih _ rest (fun v hv => h v (List.mem_cons_of_mem _ hv))]
    simp

/-- In a text made of two texts in which every `<` is followed by `u`, every `<` is
followed by `u`. -/
theorem LtThenU.append {xs ys : QString} (hx : LtThenU xs) (hy : LtThenU ys) :
    LtThenU (xs ++ ys) := by
  intro a b h
  rcases List.append_eq_append_iff.mp h with ⟨a', rfl, h2⟩ | ⟨c, h1, h2⟩
  · exact hy a' b h2
  · cases c with
    | nil =>
      simp only [List.nil_append] at h2
      exact hy [] b h2.symm
    | cons x c =>
      simp only [List.cons_append, List.cons.injEq] at h2
      obtain ⟨rfl, rfl⟩ := h2
      obtain ⟨b', hb'⟩ := hx a c h1
      exact ⟨b' ++ ys, by rw [hb']; rfl⟩

/-- A text without `<`. -/
theorem LtThenU.of_not_mem {s : QString} (h : '<' ∉ s) : LtThenU s := by
  intro a b hs
  exact absurd (by rw [hs]; simp) h

/-- A text that starts with `<u` and has no other `<`. -/
theorem LtThenU.of_head (t : QString) (h : '<' ∉ t) : LtThenU ('<' :: 'u' :: t) := by
  intro a b hs
  cases a with
  | nil =>
    simp only [List.nil_append, List.cons.injEq, true_and] at hs
    exact ⟨t, hs.symm⟩
  | cons x a =>
    simp only [List.cons_append, List.cons.injEq] at hs
    have : '<' ∈ 'u' :: t := by rw [hs.2]; simp
    simp only [List.mem_cons] at this
    rcases this with h1 | h1
    · exact absurd h1 (by decide)
    · exact absurd h1 h

/-- A plain character is not `<`. -/
theorem not_lt_of_plain (s : QString) (h : ∀ c ∈ s, isPlainChar c = true) : '<' ∉ s := by
  intro hmem
  have := h _ hmem
  revert this
  decide

/-- In the text of a written record every `<` is followed by `u`. -/
theorem LtThenU.of_renderUpdate (u : UpdateInfo) (hname : ∀ c ∈ u.name, isPlainChar c = true) :
    LtThenU (renderUpdate u) := by
  have h1 : LtThenU "<update name=\"".toList := LtThenU.of_head _ (by decide)
  have h2 : LtThenU "\" version=\"".toList := LtThenU.of_not_mem (by decide)
  have h3 : LtThenU "\" size=\"".toList := LtThenU.of_not_mem (by decide)
  have h4 : LtThenU "\"/>".toList := LtThenU.of_not_mem (by decide)
  unfold renderUpdate
  exact (((((h1.append (LtThenU.of_not_mem (not_lt_of_plain _ hname))).append h2).append
    (LtThenU.of_not_mem (not_lt_of_plain _ (renderVersion_plain _)))).append h3).append
    (LtThenU.of_not_mem (not_lt_of_plain _ (renderNat_plain _)))).append h4

/-- In the text of written records every `<` is followed by `u`. -/
theorem LtThenU.of_records (us : List UpdateInfo)
    (hplain : ∀ u ∈ us, ∀ c ∈ u.name, isPlainChar c = true) :
    LtThenU (us.map renderUpdate).flatten := by
  induction us with
  | nil => exact LtThenU.of_not_mem (by simp)
  | cons u us ih =>
    simp only [List.map_cons, List.flatten_cons]
    exact (LtThenU.of_renderUpdate u (hplain u (List.mem_cons_self _ _))).append
      (ih (fun v hv => hplain v (List.mem_cons_of_mem _ hv)))

/-- The closing marker does not occur in a text in which every `<` is followed by `u`. -/
theorem LtThenU.no_close {s : QString} (h : LtThenU s) : ¬ updatesClose <:+: s := by
  rintro ⟨a, b, hab⟩
  obtain ⟨b', hb'⟩ := h a (['/', 'u', 'p', 'd', 'a', 't', 'e', 's', '>'] ++ b)
    (by rw [← hab]; simp [updatesClose])
  simp at hb'

/-- The fragment `parseUpdates` reads from the text of a catalog is the whole text. -/
theorem extractFragment_renderCatalog (us : List UpdateInfo)
    (hplain : ∀ u ∈ us, ∀ c ∈ u.name, isPlainChar c = true) :
    extractFragment (renderCatalog us) = some (renderCatalog us) := by
  have hF0 : LtThenU (updatesOpen ++ (us.map renderUpdate).flatten) :=
    (LtThenU.of_head _ (by decide)).append (LtThenU.of_records us hplain)
  have h := extractFragment_surrounded [] (renderCatalog us) []
    ⟨_, by simp [renderCatalog]; rfl⟩ ⟨_, rfl⟩
    (only_occurrence_at_end _ hF0.no_close) (by decide)
  simpa using h

/-- C2 (amended): for every list of records with a non-empty name made of characters an
attribute value delivers unchanged, a non-null version whose segments are at most
`2^31 - 1` and a size of at most `2^64 - 1`, `parseUpdates`, reading with the concrete
reader the text `<updates>`, one self-closing `update` element per record and
`</updates>`, returns the catalog that has exactly these records, in the same order. -/
theorem parseUpdates_renderCatalog (us : List UpdateInfo) (h : ∀ u ∈ us, u.Writable) :
    parseUpdates qt5 (renderCatalog us) = some us := by
  have hplain : ∀ u ∈ us, ∀ c ∈ u.name, isPlainChar c = true := fun u hu => (h u hu).2.1
  rw [parseUpdates_of_tokens qt5 _ _ [⟨TokenType.StartDocument, [], []⟩] _
    ⟨TokenType.StartElement, updatesName, []⟩ (extractFragment_renderCatalog us hplain)
    (xmlTokens_renderCatalog us hplain) (by decide) rfl,
    loopOn_recordTokens us [] _ h, loopOn_end qt5 _ _ _ rfl]
  rfl

/-- Witness for C2 (amended): the two records of the spec. -/
theorem parseUpdates_renderCatalog_witness :
    parseUpdates qt5
      ("<updates><update name=\"A\" version=\"2.3.1\" size=\"1024\"/>" ++
        "<update name=\"B\" version=\"0.9\" size=\"0\"/></updates>").toList =
      some [⟨['A'], [2, 3, 1], 1024⟩, ⟨['B'], [0, 9], 0⟩] :=
  parseUpdates_renderCatalog [⟨['A'], [2, 3, 1], 1024⟩, ⟨['B'], [0, 9], 0⟩] (by
    intro u hu
    simp only [List.mem_cons, List.mem_singleton, List.not_mem_nil, or_false] at hu
    rcases hu with rfl | rfl <;>
      exact ⟨by decide, by decide, by decide, by decide, by decide⟩)

/-- The reader normalises white space in attribute values: a name that is a tab is read
back as a space. -/
theorem parseUpdates_name_normalised :
    parseUpdates qt5 (renderCatalog [⟨['\t'], [1], 0⟩]) = some [⟨[' '], [1], 0⟩] := by
  decide

/-- Counterexample for C2: a record whose version is the single non-negative integer
`2147483648` is written as an `update` element and not read back: the segment exceeds
what a `QVersionNumber` holds, the version read is null, and the result is the parse
failure. -/
theorem parseUpdates_version_segment_counterexample :
    renderCatalog [⟨['A'], [2147483648], 0⟩] =
        "<updates><update name=\"A\" version=\"2147483648\" size=\"0\"/></updates>".toList ∧
      qt5.versionFromString (renderVersion [2147483648]) = [] ∧
      parseUpdates qt5 (renderCatalog [⟨['A'], [2147483648], 0⟩]) = none := by
  refine ⟨?_, ?_, ?_⟩
  · decide
  · decide
  · decide

/-! ## Theorems: the completion of the process -/

/-- C6: completion dispatch.  For every exit code, exit status, captured output and
reader: `updaterReady` emits exactly one signal on a normal exit and none on an abnormal
exit; on a normal exit with code 0 it emits `checkDone` with the catalog when
`parseUpdates` returns one, and `error` (and no `checkDone`) when `parseUpdates` fails;
on a normal exit with another code it emits `checkDone` with the empty catalog,
whatever the output is. -/
theorem updaterReady_dispatch (qt : QtText) (output : QString) (exitCode : Int)
    (exitStatus : ExitStatus) :
    ((updaterReady qt output exitCode exitStatus).filter BackendEvent.isSignal).length =
        (if exitStatus = ExitStatus.NormalExit then 1 else 0) ∧
      (exitStatus = ExitStatus.NormalExit → exitCode = 0 →
        ∀ catalog, parseUpdates qt output = some catalog →
          updaterReady qt output exitCode exitStatus =
            [BackendEvent.checkDone catalog, BackendEvent.processClose]) ∧
      (exitStatus = ExitStatus.NormalExit → exitCode = 0 → parseUpdates qt output = none →
        updaterReady qt output exitCode exitStatus =
            [BackendEvent.error invalidOutputMessage, BackendEvent.processClose] ∧
          ∀ catalog, BackendEvent.checkDone catalog ∉
            updaterReady qt output exitCode exitStatus) ∧
      (exitStatus = ExitStatus.NormalExit → exitCode ≠ 0 →
        updaterReady qt output exitCode exitStatus =
          [BackendEvent.checkDone [], BackendEvent.processClose]) ∧
      (exitStatus = ExitStatus.CrashExit →
        updaterReady qt output exitCode exitStatus = [BackendEvent.processClose]) := by
  refine ⟨?_, ?_, ?_, ?_, ?_⟩
  · cases exitStatus
    · by_cases hc : exitCode = EXIT_SUCCESS
      · cases hp : parseUpdates qt output <;>
          simp [updaterReady, hc, hp, BackendEvent.isSignal]
      · simp [updaterReady, hc, BackendEvent.isSignal]
    · simp [updaterReady, BackendEvent.isSignal]
  · intro hs hc catalog hp
    simp [updaterReady, hs, hc, hp, EXIT_SUCCESS]
  · intro hs hc hp
    simp [updaterReady, hs, hc, hp, EXIT_SUCCESS]
  · intro hs hc
    simp [updaterReady, hs, hc, EXIT_SUCCESS]
  · intro hs
    simp [updaterReady, hs]

/-! ## Theorems: the update controller -/

/-- C7: for every 32-bit `delaySeconds` whose product with 1000 exceeds `2^31 - 1`,
`scheduleUpdate` returns 0 and does not call the scheduler: all it does is write a line
in the log. -/
theorem scheduleUpdate_overflow (taskId : Int) (c : Controller) (delaySeconds : Int)
    (repeated : Bool) (displayLevel : Int)
    (hrange : -2 ^ 31 ≤ delaySeconds ∧ delaySeconds ≤ 2 ^ 31 - 1)
    (hover : delaySeconds * 1000 > 2 ^ 31 - 1) :
    (scheduleUpdate taskId c delaySeconds repeated displayLevel).1 = 0 ∧
      (scheduleUpdate taskId c delaySeconds repeated displayLevel).2 =
        c.emit Event.logWarning ∧
      ∀ msecs r level, Event.startSchedule msecs r level ∉
        (scheduleUpdate taskId c delaySeconds repeated displayLevel).2.trace.drop
          c.trace.length := by
  have _ := hrange
  have h : delaySeconds * 1000 > 2147483647 := by norm_num at hover ⊢; exact hover
  simp [scheduleUpdate, h, Controller.emit]

/-- Witness for C7: a delay of 2147484 seconds. -/
theorem scheduleUpdate_overflow_witness :
    (scheduleUpdate 7 ⟨false, false, 0, false, false, false, false, false, none, []⟩
        2147484 true 0).1 = 0 :=
  (scheduleUpdate_overflow 7 ⟨false, false, 0, false, false, false, false, false, none, []⟩
    2147484 true 0 (by decide) (by decide)).1

/-- On a running controller `start` returns `false` and changes nothing. -/
theorem start_of_running (lv : DisplayLevels) (env : StartEnv) (c : Controller)
    (displayLevel : Int) (h : c.running = true) :
    start lv env c displayLevel = (false, c) := by
  simp [start, h]

/-- C8: idempotent rejection.  For every controller that is running and every level,
`start` returns `false` and leaves the controller as it is: the state (`running`, the
canceled marker, the level, the progress dialog) and the trace, so that no prompt is
shown, the backend is not called and no signal is emitted. -/
theorem start_while_running (lv : DisplayLevels) (env : StartEnv) (c : Controller)
    (displayLevel : Int) (h : c.running = true) :
    start lv env c displayLevel = (false, c) :=
  start_of_running lv env c displayLevel h

/-- Witness for C8: a running controller with a progress dialog. -/
theorem start_while_running_witness :
    start specLevels ⟨true, true⟩
        ⟨true, false, 4, true, false, false, false, false, none, []⟩ 1 =
      (false, ⟨true, false, 4, true, false, false, false, false, none, []⟩) :=
  start_while_running specLevels ⟨true, true⟩ _ 1 rfl

/-- What a call of `start` that returns `true` leaves: the controller was idle, is now
running at the level of the call, its canceled marker is cleared and the hand-off is as
it was. -/
theorem start_true_state (lv : DisplayLevels) (env : StartEnv) (c : Controller)
    (displayLevel : Int) (h : (start lv env c displayLevel).1 = true) :
    c.running = false ∧ (start lv env c displayLevel).2.running = true ∧
      (start lv env c displayLevel).2.wasCanceled = false ∧
      (start lv env c displayLevel).2.displayLevel = displayLevel ∧
      (start lv env c displayLevel).2.handOff = c.handOff := by
  unfold start at h ⊢
  by_cases hr : c.running = true
  · simp [hr] at h
  · simp only [hr, Bool.false_eq_true, if_false] at h ⊢
    simp only [Controller.emit] at h ⊢
    split_ifs at h ⊢ <;> simp_all

/-- Calls of `start` on a running controller change nothing. -/
theorem startAll_running (lv : DisplayLevels) (calls : List (StartEnv × Int))
    (c : Controller) (h : c.running = true) : startAll lv calls c = c := by
  induction calls with
  | nil => rfl
  | cons call calls ih =>
    simp only [startAll, List.foldl_cons] at ih ⊢
    rw [start_of_running lv call.1 c call.2 h]
    exact ih

/-- The events of `checkUpdatesDone` on a session that was canceled. -/
theorem checkUpdatesDone_canceled (lv : DisplayLevels) (env : DoneEnv) (c : Controller)
    (hasUpdates hasError : Bool) (h : c.wasCanceled = true) :
    (checkUpdatesDone lv env c hasUpdates hasError).trace =
        c.trace ++
          ((if c.displayLevel ≥ lv.ExtendedInfoLevel ∧ c.checkUpdatesProgress = true then
              [Event.progressHide] else []) ++
            (if c.displayLevel ≥ lv.ExtendedInfoLevel then
              [Event.setTaskbarState WinProgressState.Paused, Event.warningCanceled]
              else []) ++
            [Event.clearTaskbar, Event.runningChanged false]) ∧
      (checkUpdatesDone lv env c hasUpdates hasError).running = false ∧
      (checkUpdatesDone lv env c hasUpdates hasError).handOff = c.handOff := by
  unfold checkUpdatesDone
  simp only [Controller.emit]
  by_cases h1 : c.displayLevel ≥ lv.ExtendedInfoLevel <;>
    by_cases h2 : c.checkUpdatesProgress = true <;>
    simp [h, h1, h2]

/-- C9: cancellation decides the completion callback.  In every session in which `start`
returned `true` and `cancelUpdate` then returned `true`, whatever calls of `start` follow,
the following `checkUpdatesDone`, for every pair of booleans, does not show the
install-decision dialog, does not arm the hand-off, does not quit the application,
shows the "canceled" warning exactly when the level of the session is at least
`ExtendedInfoLevel`, and ends with `running = false`. -/
theorem checkUpdatesDone_after_cancel (lv : DisplayLevels) (env : StartEnv)
    (c : Controller) (displayLevel : Int) (updaterRunning : Bool) (maxDelay : Int)
    (calls : List (StartEnv × Int)) (envDone : DoneEnv) (hasUpdates hasError : Bool)
    (hstart : (start lv env c displayLevel).1 = true)
    (hcancel : (cancelUpdate updaterRunning (start lv env c displayLevel).2 maxDelay).1 = true) :
    startAll lv calls (cancelUpdate updaterRunning (start lv env c displayLevel).2 maxDelay).2 =
        (cancelUpdate updaterRunning (start lv env c displayLevel).2 maxDelay).2 ∧
      ∃ events,
        (checkUpdatesDone lv envDone
            (startAll lv calls
              (cancelUpdate updaterRunning (start lv env c displayLevel).2 maxDelay).2)
            hasUpdates hasError).trace =
          (cancelUpdate updaterRunning (start lv env c displayLevel).2 maxDelay).2.trace ++
            events ∧
        (∀ a b d, Event.showUpdateInfo a b d ∉ events) ∧
        (∀ e, Event.runUpdaterOnExit e ∉ events) ∧
        Event.quit ∉ events ∧
        (Event.warningCanceled ∈ events ↔ displayLevel ≥ lv.ExtendedInfoLevel) ∧
        (checkUpdatesDone lv envDone
            (startAll lv calls
              (cancelUpdate updaterRunning (start lv env c displayLevel).2 maxDelay).2)
            hasUpdates hasError).running = false ∧
        (checkUpdatesDone lv envDone
            (startAll lv calls
              (cancelUpdate updaterRunning (start lv env c displayLevel).2 maxDelay).2)
            hasUpdates hasError).handOff = c.handOff := by
  obtain ⟨_, hrun, _, hlevel, hhand⟩ := start_true_state lv env c displayLevel hstart
  have hup : updaterRunning = true := by
    cases updaterRunning
    · simp [cancelUpdate] at hcancel
    · rfl
  subst hup
  generalize start lv env c displayLevel = r at *
  obtain ⟨b, c1⟩ := r
  simp only at hrun hlevel hhand hcancel ⊢
  have hc2 : (cancelUpdate true c1 maxDelay).2.running = true ∧
      (cancelUpdate true c1 maxDelay).2.wasCanceled = true ∧
      (cancelUpdate true c1 maxDelay).2.displayLevel = displayLevel ∧
      (cancelUpdate true c1 maxDelay).2.handOff = c.handOff := by
    simp only [cancelUpdate, Controller.emit, if_true]
    split_ifs <;> simp [hrun, hlevel, hhand]
  generalize (cancelUpdate true c1 maxDelay).2 = c2 at *
  obtain ⟨h2run, h2can, h2lev, h2hand⟩ := hc2
  have hall := startAll_running lv calls c2 h2run
  refine ⟨hall, ?_⟩
  rw [hall]
  obtain ⟨htrace, hr, hh⟩ := checkUpdatesDone_canceled lv envDone c2 hasUpdates hasError h2can
  refine ⟨_, htrace, ?_, ?_, ?_, ?_, hr, hh.trans h2hand⟩
  · intro a b d; rw [h2lev]; split_ifs <;> simp
  · intro e; rw [h2lev]; split_ifs <;> simp
  · rw [h2lev]; split_ifs <;> simp
  · rw [h2lev]; split_ifs <;> simp_all

/-- Witness for C9: a session at the level `Progress` of the spec, canceled, with two
further calls of `start` before updates are reported. -/
theorem checkUpdatesDone_after_cancel_witness :
    (checkUpdatesDone specLevels ⟨2, true, DialogResult.InstallNow, true⟩
        (startAll specLevels [(⟨true, true⟩, 0), (⟨true, true⟩, 5)]
          (cancelUpdate true
            (start specLevels ⟨true, true⟩
              ⟨false, false, 0, false, false, false, false, false, none, []⟩ 4).2 3000).2)
        true false).running = false :=
  (checkUpdatesDone_after_cancel specLevels ⟨true, true⟩
    ⟨false, false, 0, false, false, false, false, false, none, []⟩ 4 true 3000
    [(⟨true, true⟩, 0), (⟨true, true⟩, 5)] ⟨2, true, DialogResult.InstallNow, true⟩ true false
    (by decide) (by decide)).2.choose_spec.2.2.2.2.2.1

/-- C10: the confirmation prompt.  For every level below `AskLevel` and every
controller, `start` does not show the prompt.  From an idle controller, `start` at a
level of at least `AskLevel` shows the prompt exactly once, and before it calls nothing
on the backend. -/
theorem start_prompt (lv : DisplayLevels) (env : StartEnv) (c : Controller)
    (displayLevel : Int) :
    (displayLevel < lv.AskLevel →
      ∃ events, (start lv env c displayLevel).2.trace = c.trace ++ events ∧
        Event.question ∉ events) ∧
    (c.running = false → displayLevel ≥ lv.AskLevel →
      ∃ before after, (start lv env c displayLevel).2.trace =
          c.trace ++ (before ++ Event.question :: after) ∧
        Event.question ∉ before ∧ Event.question ∉ after ∧
        Event.checkForUpdates ∉ before ∧
        (Event.checkForUpdates ∈ after ↔ env.answerYes = true)) := by
  constructor
  · intro hlt
    have hnot : ¬ (displayLevel ≥ lv.AskLevel) := by omega
    unfold start
    simp only [Controller.emit, hnot, if_false, false_and]
    split_ifs
    · exact ⟨[], by simp, by simp⟩
    · exact ⟨_, by simp; rfl, by simp⟩
    · exact ⟨_, by simp; rfl, by simp⟩
    · exact ⟨_, by simp; rfl, by simp⟩
    · exact ⟨_, by simp; rfl, by simp⟩
    · exact ⟨_, by simp; rfl, by simp⟩
    · exact ⟨_, by simp; rfl, by simp⟩
  · intro hidle hge
    unfold start
    simp only [Controller.emit, hidle, hge, if_true, true_and, Bool.false_eq_true, if_false]
    refine ⟨[Event.runningChanged true], ?_⟩
    split_ifs <;> simp_all

/-! ## Theorems: the install decision, elevation and the launch -/

/-- The events of `checkUpdatesDone` on a session that was not canceled, with updates,
at a level below `InfoLevel`. -/
theorem checkUpdatesDone_below_info (lv : DisplayLevels) (env : DoneEnv) (c : Controller)
    (hasError : Bool) (hnc : c.wasCanceled = false) (hlevel : c.displayLevel < lv.InfoLevel) :
    (checkUpdatesDone lv env c true hasError).trace =
        c.trace ++
          ((if c.displayLevel ≥ lv.ExtendedInfoLevel ∧ c.checkUpdatesProgress = true then
              [Event.progressHide] else []) ++
            [Event.runUpdaterOnExit c.runAdmin] ++
            (if c.displayLevel = lv.ExitLevel then
              [Event.setTaskbarState WinProgressState.Running, Event.informationOnExit]
              else [Event.quit]) ++
            [Event.clearTaskbar, Event.runningChanged false]) ∧
      (checkUpdatesDone lv env c true hasError).handOff = some c.runAdmin ∧
      (checkUpdatesDone lv env c true hasError).running = false := by
  rcases c with ⟨run, can, lvl, prog, ra, ue, di, tb, ho, tr⟩
  simp only at hnc hlevel
  subst hnc
  have hn : ¬ (lvl ≥ lv.InfoLevel) := by omega
  unfold checkUpdatesDone
  simp only [Controller.emit, Controller.armHandOff]
  by_cases h3 : lvl = lv.ExitLevel
  · subst h3
    by_cases h1 : lv.ExitLevel ≥ lv.ExtendedInfoLevel <;> cases prog <;> simp [hn, h1]
  · by_cases h1 : lvl ≥ lv.ExtendedInfoLevel <;> cases prog <;> simp [hn, h1, h3]

/-- C11: for every session that was not canceled and whose level is below `InfoLevel`,
`checkUpdatesDone(true, hasError)` does not show the install-decision dialog, arms the
hand-off exactly once, with the elevation that `runAdmin` says, and quits the
application exactly when the level is not `ExitLevel`. -/
theorem checkUpdatesDone_silent_install (lv : DisplayLevels) (env : DoneEnv)
    (c : Controller) (hasError : Bool) (hnc : c.wasCanceled = false)
    (hlevel : c.displayLevel < lv.InfoLevel) :
    ∃ events, (checkUpdatesDone lv env c true hasError).trace = c.trace ++ events ∧
      (∀ a b d, Event.showUpdateInfo a b d ∉ events) ∧
      events.count (Event.runUpdaterOnExit c.runAdmin) = 1 ∧
      Event.runUpdaterOnExit (!c.runAdmin) ∉ events ∧
      (Event.quit ∈ events ↔ c.displayLevel ≠ lv.ExitLevel) ∧
      (checkUpdatesDone lv env c true hasError).handOff = some c.runAdmin := by
  obtain ⟨htrace, hhand, _⟩ := checkUpdatesDone_below_info lv env c hasError hnc hlevel
  refine ⟨_, htrace, ?_, ?_, ?_, ?_, hhand⟩
  · intro a b d; split_ifs <;> simp
  · split_ifs <;> simp [List.count_cons]
  · split_ifs <;> cases c.runAdmin <;> simp
  · split_ifs with h1 h2 h2 <;> simp [h2]

/-- Witness for C11: a session at level 0 with the levels of the spec. -/
theorem checkUpdatesDone_silent_install_witness :
    (checkUpdatesDone specLevels ⟨1, false, DialogResult.NoInstall, true⟩
        ⟨true, false, 0, false, true, false, false, false, none, []⟩ true false).handOff =
      some true :=
  (checkUpdatesDone_silent_install specLevels ⟨1, false, DialogResult.NoInstall, true⟩
    ⟨true, false, 0, false, true, false, false, false, none, []⟩ false rfl
    (by decide)).choose_spec.2.2.2.2.2

/-- C12: for every controller and every pair of booleans, `setRunAsAdmin(v, e)` leaves
`runAdmin = v` and `adminUserEdit = e`; it arms the hand-off again, with elevation `v`,
exactly when `v` differs from the previous `runAdmin` and a hand-off is armed; it emits
`runAsAdminChanged` exactly when `v` differs from the previous value; and a second call
with the same arguments changes nothing, trace included. -/
theorem setRunAsAdmin_spec (c : Controller) (v e : Bool) :
    (setRunAsAdmin c v e).runAdmin = v ∧
      (setRunAsAdmin c v e).adminUserEdit = e ∧
      (setRunAsAdmin c v e).trace =
        c.trace ++
          (if c.runAdmin ≠ v then
            (if c.handOff.isSome then [Event.runUpdaterOnExit v] else []) ++
              [Event.runAsAdminChanged v]
          else []) ∧
      (setRunAsAdmin c v e).handOff =
        (if c.runAdmin ≠ v ∧ c.handOff.isSome then some v else c.handOff) ∧
      ((∃ x, Event.runUpdaterOnExit x ∈ (setRunAsAdmin c v e).trace.drop c.trace.length) ↔
        (c.runAdmin ≠ v ∧ c.handOff.isSome)) ∧
      ((∃ x, Event.runAsAdminChanged x ∈ (setRunAsAdmin c v e).trace.drop c.trace.length) ↔
        c.runAdmin ≠ v) ∧
      setRunAsAdmin (setRunAsAdmin c v e) v e = setRunAsAdmin c v e := by
  rcases c with ⟨run, can, lvl, prog, ra, ue, di, tb, ho, tr⟩
  unfold setRunAsAdmin
  simp only [Controller.emit, Controller.armHandOff]
  by_cases h1 : ra = v
  · subst h1
    simp
  · cases ho <;> simp [h1]

/-- C13: for every catalog and configuration, `triggerUpdates` launches the tool with
exactly one argument, `--silentUpdate` when the option `silent` is set and true and
`--updater` otherwise; the launch goes through `executeAsAdmin` exactly when an
elevation helper is configured and it has no administrator rights, and is a detached
start otherwise; the value returned is the result of that launch; the catalog has no
influence. -/
theorem triggerUpdates_spec (env : TriggerEnv) (program workingDirectory : QString)
    (updates : List UpdateInfo) :
    (∃ argument,
      argument = (if env.silent = some true then "--silentUpdate".toList
        else "--updater".toList) ∧
      triggerUpdates env program workingDirectory updates =
        (match env.authoriser with
          | some a =>
            if a.hasAdminRights = false then
              (a.executeAsAdmin program [argument], Launch.executeAsAdmin program [argument])
            else
              (env.startDetached program [argument] workingDirectory,
                Launch.startDetached program [argument] workingDirectory)
          | none =>
            (env.startDetached program [argument] workingDirectory,
              Launch.startDetached program [argument] workingDirectory))) ∧
      ((∃ arguments, (triggerUpdates env program workingDirectory updates).2 =
          Launch.executeAsAdmin program arguments) ↔
        ∃ a, env.authoriser = some a ∧ a.hasAdminRights = false) ∧
      ∀ updates', triggerUpdates env program workingDirectory updates' =
        triggerUpdates env program workingDirectory updates := by
  have harg : (if env.silent.getD false = true then "--silentUpdate".toList
      else "--updater".toList) =
      (if env.silent = some true then "--silentUpdate".toList else "--updater".toList) := by
    rcases env.silent with _ | b
    · rfl
    · cases b <;> rfl
  refine ⟨⟨_, rfl, ?_⟩, ?_, fun _ => rfl⟩
  · unfold triggerUpdates
    rw [harg]
    rcases env.authoriser with _ | a
    · rfl
    · cases h : a.hasAdminRights <;> simp
  · unfold triggerUpdates
    rcases env.authoriser with _ | a
    · simp
    · cases h : a.hasAdminRights <;> simp [h]

/-! ## Theorems: the conversion of the delay -/

/-- When the product of the delay and 1000 is a 32-bit integer, `scheduleUpdate` passes
exactly that product to the scheduler. -/
theorem scheduleUpdate_exact (taskId : Int) (c : Controller) (delaySeconds : Int)
    (repeated : Bool) (displayLevel : Int)
    (hlow : -2 ^ 31 ≤ delaySeconds * 1000) (hhigh : delaySeconds * 1000 ≤ 2 ^ 31 - 1) :
    scheduleUpdate taskId c delaySeconds repeated displayLevel =
      (taskId, c.emit (Event.startSchedule (delaySeconds * 1000) repeated displayLevel)) := by
  have h : ¬ (delaySeconds * 1000 > 2147483647) := by norm_num at hhigh ⊢; omega
  have hw : wrapInt32 (delaySeconds * 1000) = delaySeconds * 1000 := by
    unfold wrapInt32
    norm_num at hlow hhigh ⊢
    omega
  simp [scheduleUpdate, h, hw]

/-- C14: at `delaySeconds = -2147484` the guard of `scheduleUpdate` lets the call
through, although the exact product `-2147484000` is below `-2^31`: the scheduler is
called, and the `int` product it receives wraps around to `2147483296`. -/
theorem scheduleUpdate_negative_wraps :
    (-2 ^ 31 : Int) ≤ -2147484 ∧ (-2147484 : Int) ≤ 2 ^ 31 - 1 ∧
      (-2147484 : Int) * 1000 = -2147484000 ∧
      scheduleUpdate 7 ⟨false, false, 0, false, false, false, false, false, none, []⟩
          (-2147484) false 0 =
        (7, ⟨false, false, 0, false, false, false, false, false, none,
          [Event.startSchedule 2147483296 false 0]⟩) := by
  refine ⟨by decide, by decide, by decide, by decide⟩

/-! ## Theorems: the level `ExitLevel` -/

/-- Counterexample for C15: with the levels in the order of the spec, a session at the
level `Exit` that was not canceled shows the install-decision dialog when updates are
reported, and with the answer "install now" it quits the application. -/
theorem checkUpdatesDone_exit_spec_order_counterexample :
    (checkUpdatesDone specLevels ⟨1, false, DialogResult.InstallNow, true⟩
        ⟨true, false, specLevels.ExitLevel, false, false, true, false, false, none, []⟩
        true false).trace =
      [Event.setTaskbarState WinProgressState.Running,
        Event.showUpdateInfo false true false, Event.clearTaskbar,
        Event.runUpdaterOnExit false, Event.quit, Event.clearTaskbar,
        Event.runningChanged false] := by
  decide

/-- C15 (amended): for every assignment of values to the levels in which `ExitLevel` is
below `InfoLevel`, `checkUpdatesDone(true, hasError)` in a session at the level
`ExitLevel` that was not canceled arms the hand-off, with the elevation that `runAdmin`
says, does not quit the application and does not show the install-decision dialog; it
tells the user that the tool starts when the application is closed. -/
theorem checkUpdatesDone_exit_level (lv : DisplayLevels) (env : DoneEnv) (c : Controller)
    (hasError : Bool) (horder : lv.ExitLevel < lv.InfoLevel)
    (hnc : c.wasCanceled = false) (hlevel : c.displayLevel = lv.ExitLevel) :
    ∃ events, (checkUpdatesDone lv env c true hasError).trace = c.trace ++ events ∧
      events.count (Event.runUpdaterOnExit c.runAdmin) = 1 ∧
      Event.runUpdaterOnExit (!c.runAdmin) ∉ events ∧
      Event.quit ∉ events ∧
      (∀ a b d, Event.showUpdateInfo a b d ∉ events) ∧
      Event.informationOnExit ∈ events ∧
      (checkUpdatesDone lv env c true hasError).handOff = some c.runAdmin := by
  obtain ⟨htrace, hhand, _⟩ :=
    checkUpdatesDone_below_info lv env c hasError hnc (by omega)
  refine ⟨_, htrace, ?_, ?_, ?_, ?_, ?_, hhand⟩
  · split_ifs <;> simp [List.count_cons]
  · split_ifs <;> cases c.runAdmin <;> simp
  · simp [hlevel]
  · intro a b d; split_ifs <;> simp
  · simp [hlevel]

/-- Witness for C15 (amended): levels with `ExitLevel = 1` below `InfoLevel = 2`. -/
theorem checkUpdatesDone_exit_level_witness :
    (checkUpdatesDone ⟨5, 2, 3, 4, 1⟩ ⟨1, false, DialogResult.InstallNow, true⟩
        ⟨true, false, 1, false, true, false, false, false, none, []⟩ true false).handOff =
      some true :=
  (checkUpdatesDone_exit_level ⟨5, 2, 3, 4, 1⟩ ⟨1, false, DialogResult.InstallNow, true⟩
    ⟨true, false, 1, false, true, false, false, false, none, []⟩ false (by decide) rfl
    rfl).choose_spec.2.2.2.2.2.2

/-- With the levels in an order in which `ExitLevel` is at least `InfoLevel`, as in the
order of the spec, a session at the level `ExitLevel` that was not canceled shows the
install-decision dialog when updates are reported. -/
theorem checkUpdatesDone_exit_level_dialog (lv : DisplayLevels) (env : DoneEnv)
    (c : Controller) (hasError : Bool) (horder : lv.InfoLevel ≤ lv.ExitLevel)
    (hnc : c.wasCanceled = false) (hlevel : c.displayLevel = lv.ExitLevel) :
    Event.showUpdateInfo c.runAdmin c.adminUserEdit c.detailedInfo ∈
      (checkUpdatesDone lv env c true hasError).trace := by
  rcases c with ⟨run, can, lvl, prog, ra, ue, di, tb, ho, tr⟩
  simp only at hnc hlevel
  subst hnc hlevel
  have hn : lv.ExitLevel ≥ lv.InfoLevel := horder
  unfold checkUpdatesDone
  simp only [Controller.emit, Controller.armHandOff]
  by_cases h1 : lv.ExitLevel ≥ lv.ExtendedInfoLevel <;> cases prog <;> cases tb <;>
    cases env.dialogResult <;> by_cases h0 : env.updateCount > 0 <;>
    by_cases h5 : env.dialogRunAdmin = ra <;> simp [hn, h1, h0, h5]

/-! ## Theorems: errors of the reader and the root element -/

/-- The loop fails when the reader reports an error after a balanced run of tokens. -/
theorem loopOn_error_after_balanced (qt : QtText) (body rest : List XmlToken)
    (bad : XmlToken) (acc : List UpdateInfo) (hbody : Balanced body)
    (hbad : bad.type = TokenType.Invalid) :
    loopOn qt (body ++ bad :: rest) acc = some none := by
  rcases loopOn_balanced qt hbody (bad :: rest) acc with h | ⟨more, h⟩
  · exact h
  · rw [h]; exact loopOn_invalid qt bad rest _ hbad

/-- The loop fails when the reader reports an error inside an element that is not
closed. -/
theorem loopOn_error_in_element (qt : QtText) (body inner rest : List XmlToken)
    (s bad : XmlToken) (acc : List UpdateInfo) (hbody : Balanced body)
    (hs : s.type = TokenType.StartElement) (hinner : ∀ t ∈ inner, t.isSkipped = true)
    (hbad : bad.type = TokenType.Invalid) :
    loopOn qt (body ++ s :: (inner ++ bad :: rest)) acc = some none := by
  rcases loopOn_balanced qt hbody (s :: (inner ++ bad :: rest)) acc with h | ⟨more, h⟩
  · exact h
  · rw [h, loopOn_step, readNextStartElementFrom_start s _ hs]
    simp only [QXmlStreamReader.name, QXmlStreamReader.attributes,
      QXmlStreamReader.readNextStartElement, hs, reduceCtorEq, if_false]
    rw [readNextStartElementFrom_skip inner _ hinner,
      readNextStartElementFrom_invalid bad rest hbad]
    simp only [List.length_cons]
    split_ifs
    · rfl
    · rfl
    · simp [parseLoop, QXmlStreamReader.readNextStartElement, QXmlStreamReader.hasError, hbad]

/-- C16: the output `<updates><update name="A" version="1.0" size="10"/></updates >`
followed by `</updates>` has both markers, and the fragment read is the whole output.
The fragment is not well-formed: after the end tag `</updates >` of the root element
comes a second end tag, and the reader, read to the end, reports an error.
`parseUpdates` nevertheless returns the catalog with the record `A`: the loop stops at
the end tag of the root element and nothing is read after it. -/
theorem parseUpdates_trailing_content :
    extractFragment
        "<updates><update name=\"A\" version=\"1.0\" size=\"10\"/></updates ></updates>".toList =
      some "<updates><update name=\"A\" version=\"1.0\" size=\"10\"/></updates ></updates>".toList ∧
    qt5.xmlTokens
        "<updates><update name=\"A\" version=\"1.0\" size=\"10\"/></updates ></updates>".toList =
      [⟨TokenType.StartDocument, [], []⟩, ⟨TokenType.StartElement, updatesName, []⟩,
        ⟨TokenType.StartElement, updateName,
          [⟨attrName, ['A']⟩, ⟨attrVersion, "1.0".toList⟩, ⟨attrSize, "10".toList⟩]⟩,
        ⟨TokenType.EndElement, updateName, []⟩, ⟨TokenType.EndElement, updatesName, []⟩,
        invalidToken] ∧
    parseUpdates qt5
        "<updates><update name=\"A\" version=\"1.0\" size=\"10\"/></updates ></updates>".toList =
      some [⟨['A'], [1, 0], 10⟩] := by
  refine ⟨by decide, by decide, by decide⟩

/-- The search, when it finds the needle, returns a position at which the needle
stands. -/
theorem indexOfFrom_found (needle : QString) :
    ∀ (hay : QString) (pos : Nat), 0 ≤ indexOfFrom needle hay pos →
      ∃ k : Nat, indexOfFrom needle hay pos = (pos : Int) + k ∧ needle <+: hay.drop k := by
  intro hay
  induction hay with
  | nil =>
    intro pos h
    by_cases hn : needle = []
    · exact ⟨0, by simp [indexOfFrom, hn], by simp [hn]⟩
    · simp [indexOfFrom, hn] at h
  | cons c cs ih =>
    intro pos h
    by_cases hp : needle <+: c :: cs
    · exact ⟨0, by simp [indexOfFrom, List.isPrefixOf_iff_prefix, hp], by simpa using hp⟩
    · have hstep : indexOfFrom needle (c :: cs) pos = indexOfFrom needle cs (pos + 1) := by
        simp only [indexOfFrom, List.isPrefixOf_iff_prefix, hp, if_false]
      rw [hstep] at h ⊢
      obtain ⟨k, hk, hpre⟩ := ih (pos + 1) h
      refine ⟨k + 1, ?_, by simpa using hpre⟩
      rw [hk]; push_cast; ring

/-- The fragment `parseUpdates` reads begins with the opening marker. -/
theorem extractFragment_prefix (out frag : QString) (h : extractFragment out = some frag) :
    updatesOpen <+: frag := by
  unfold extractFragment at h
  by_cases h1 : indexOf out updatesOpen 0 < 0
  · simp [h1] at h
  · simp only [h1, if_false] at h
    by_cases h2 : indexOf out updatesClose (indexOf out updatesOpen 0).toNat < 0
    · simp [h2] at h
    · simp only [h2, if_false, Option.some.injEq] at h
      rw [indexOf_zero] at h h1 h2
      obtain ⟨b, hb0, hpre⟩ := indexOfFrom_found updatesOpen out 0 (by omega)
      have hb : indexOfFrom updatesOpen out 0 = (b : Int) := by rw [hb0]; simp
      rw [hb] at h h2
      simp only [Int.toNat_ofNat] at h h2
      have hle : ¬ (out.length < b) := by
        intro hlt
        rw [List.drop_eq_nil_of_le (by omega)] at hpre
        have := hpre.length_le
        simp [updatesOpen] at this
      simp only [indexOf, hle, if_false] at h h2
      obtain ⟨k, hk, _⟩ := indexOfFrom_found updatesClose (out.drop b) b (by omega)
      rw [hk] at h
      rw [← h, mid, List.prefix_take_iff]
      refine ⟨hpre, ?_⟩
      have : ((b : Int) + k + 10 - b).toNat = k + 10 := by omega
      rw [this]
      simp [updatesOpen]

/-- The first tokens the concrete reader delivers for a text that begins with the
opening marker: the start of the document and the start of an element `updates`. -/
theorem xmlTokens_of_prefix (rest : QString) :
    ∃ more, xmlTokens (updatesOpen ++ rest) =
      ⟨TokenType.StartDocument, [], []⟩ :: ⟨TokenType.StartElement, updatesName, []⟩ ::
        more := by
  have hsplit := takeWhile_append_stop isNameChar updatesName ('>' :: rest) (by decide)
    (by intro x r hx; simp only [List.cons.injEq] at hx; rw [← hx.1]; decide)
  have ho : updatesOpen ++ rest =
      '<' :: 'u' :: (['p', 'd', 'a', 't', 'e', 's'] ++ '>' :: rest) := by
    simp [updatesOpen]
  have hu : updatesName = 'u' :: ['p', 'd', 'a', 't', 'e', 's'] := rfl
  have hlen : (updatesOpen ++ rest).length + 1 = (rest.length + 8) + 2 := by
    simp [updatesOpen]
  rw [hu, List.cons_append] at hsplit
  rw [xmlTokens, hlen, ho, xmlTokensFrom]
  · simp only [hsplit.1, hsplit.2]
    rw [readAttributes, dropWhile_cons_stop isXmlSpace '>' _ (by decide)]
    have hns : isNameStartChar 'u' = true := by decide
    simp only [List.isEmpty_nil, Bool.false_eq_true, and_false, if_false, hns, Bool.not_true]
    exact ⟨_, rfl⟩
  · decide

/-- C17: the assertion on the root element holds whenever it is reached.  For every
captured output in which both markers are found, the token the concrete reader holds
after the first `readNextStartElement` is the start of an element named `updates`.  And
for every reader, the value `parseUpdates` returns is computed from the tokens after the
start of the root element alone: the name of the root element has no part in it. -/
theorem parseUpdates_root_assertion (out : QString) :
    (∀ r, readerAtAssert qt5 out = some r →
      r.current.type = TokenType.StartElement ∧ r.name = updatesName) ∧
    (∀ (qt : QtText) (frag : QString) (lead body : List XmlToken) (root : XmlToken),
      extractFragment out = some frag → qt.xmlTokens frag = lead ++ root :: body →
      (∀ t ∈ lead, t.isSkipped = true) → root.type = TokenType.StartElement →
      parseUpdates qt out = (loopOn qt body []).join) := by
  constructor
  · intro r hr
    unfold readerAtAssert at hr
    cases hf : extractFragment out with
    | none => simp [hf] at hr
    | some frag =>
      obtain ⟨rest, hrest⟩ := extractFragment_prefix out frag hf
      obtain ⟨more, hmore⟩ := xmlTokens_of_prefix rest
      rw [hrest] at hmore
      simp only [hf, Option.map_some', Option.some.injEq, qt5, hmore] at hr
      rw [← hr]
      simp [QXmlStreamReader.readNextStartElement, noToken, readNextStartElementFrom,
        QXmlStreamReader.name]
  · intro qt frag lead body root hf htok hlead hroot
    exact parseUpdates_of_tokens qt out frag lead body root hf htok hlead hroot

/-! ## Theorems: the result of start and the progress surrogate -/

/-- Counterexample for C18: from an idle controller, at the level 0 (below `Ask`, with the
levels of the spec), with an answer to the prompt that is not yes, `start` calls
`checkForUpdates` and returns `true`: no prompt is shown, so the answer is not asked. -/
theorem start_below_ask_counterexample :
    (⟨false, true⟩ : StartEnv).answerYes = false ∧
      (start specLevels ⟨false, true⟩
        ⟨false, false, 0, false, false, false, false, false, none, []⟩ 0) =
      (true, ⟨true, false, 0, false, false, false, false, false, none,
        [Event.runningChanged true, Event.checkForUpdates]⟩) := by
  decide

/-- C18 (amended): the value `start` returns.  For every idle controller, level, answer
to the prompt and answer of the backend: `start` returns `true` exactly when the level
is below `AskLevel` or the answer to the prompt is yes, and `checkForUpdates` accepts;
the value returned is the value of `running` after the call; the canceled marker is
clear after the call; and when the level is at least `AskLevel` and the answer to the
prompt is not yes, `checkForUpdates` is not called.  The prompt is shown exactly when
the level is at least `AskLevel`, and `checkForUpdates` is called exactly when the level
is below `AskLevel` or the answer is yes. -/
theorem start_result (lv : DisplayLevels) (env : StartEnv) (c : Controller)
    (displayLevel : Int) (hidle : c.running = false) :
    ((start lv env c displayLevel).1 = true ↔
        (displayLevel < lv.AskLevel ∨ env.answerYes = true) ∧ env.checkForUpdates = true) ∧
      (start lv env c displayLevel).1 = (start lv env c displayLevel).2.running ∧
      (start lv env c displayLevel).2.wasCanceled = false ∧
      ∃ events, (start lv env c displayLevel).2.trace = c.trace ++ events ∧
        (Event.question ∈ events ↔ displayLevel ≥ lv.AskLevel) ∧
        (displayLevel ≥ lv.AskLevel → env.answerYes = false →
          Event.checkForUpdates ∉ events) ∧
        (Event.checkForUpdates ∈ events ↔
          (displayLevel < lv.AskLevel ∨ env.answerYes = true)) := by
  rcases c with ⟨run, can, lvl, prog, ra, ue, di, tb, ho, tr⟩
  rcases env with ⟨yes, accept⟩
  simp only at hidle
  subst hidle
  unfold start
  simp only [Controller.emit]
  by_cases h1 : displayLevel ≥ lv.AskLevel <;> cases yes <;> cases accept <;>
    by_cases h2 : displayLevel ≥ lv.ProgressLevel <;>
    by_cases h3 : displayLevel ≥ lv.ExtendedInfoLevel <;> cases tb <;>
    simp [h1, h2, h3] <;> omega

/-- Witness for C18 (amended): an idle controller, the level `Ask` of the spec, the
answer yes. -/
theorem start_result_witness :
    (start specLevels ⟨true, true⟩
        ⟨false, false, 0, false, false, false, false, false, none, []⟩ 1).2.wasCanceled =
      false :=
  (start_result specLevels ⟨true, true⟩
    ⟨false, false, 0, false, false, false, false, false, none, []⟩ 1 rfl).2.2.1

/-- The three parts of `checkUpdatesDone`. -/
theorem checkUpdatesDone_parts (lv : DisplayLevels) (env : DoneEnv) (c : Controller)
    (hasUpdates hasError : Bool) :
    checkUpdatesDone lv env c hasUpdates hasError =
      ({ (checkUpdatesDoneReport lv env (checkUpdatesDoneTeardown lv c) hasUpdates
            hasError).emit Event.clearTaskbar with running := false }).emit
        (Event.runningChanged false) := rfl

/-- The middle part of `checkUpdatesDone` leaves the progress surrogate, the level and
`running` as they are. -/
theorem checkUpdatesDoneReport_frame (lv : DisplayLevels) (env : DoneEnv) (c : Controller)
    (hasUpdates hasError : Bool) :
    (checkUpdatesDoneReport lv env c hasUpdates hasError).checkUpdatesProgress =
        c.checkUpdatesProgress ∧
      (checkUpdatesDoneReport lv env c hasUpdates hasError).displayLevel = c.displayLevel ∧
      (checkUpdatesDoneReport lv env c hasUpdates hasError).running = c.running := by
  unfold checkUpdatesDoneReport
  simp only [Controller.emit, Controller.armHandOff]
  split_ifs <;> (try split) <;> exact ⟨rfl, rfl, rfl⟩

/-- After `checkUpdatesDone` the progress surrogate is gone when the level is at least
`ExtendedInfoLevel`, and is as before otherwise. -/
theorem checkUpdatesDone_progress (lv : DisplayLevels) (env : DoneEnv) (c : Controller)
    (hasUpdates hasError : Bool) :
    (checkUpdatesDone lv env c hasUpdates hasError).checkUpdatesProgress =
      (if c.displayLevel ≥ lv.ExtendedInfoLevel then false else c.checkUpdatesProgress) := by
  rw [checkUpdatesDone_parts]
  have h := (checkUpdatesDoneReport_frame lv env (checkUpdatesDoneTeardown lv c) hasUpdates
    hasError).1
  simp only [Controller.emit]
  rw [h]
  unfold checkUpdatesDoneTeardown
  split_ifs with h1 h2
  · rfl
  · simpa using h2
  · rfl

/-- A call keeps this: a progress surrogate exists only while the controller is running
at a level of at least `ProgressLevel` and `ExtendedInfoLevel`. -/
theorem progress_invariant_call (lv : DisplayLevels) (c : Controller) (call : Call)
    (h : c.checkUpdatesProgress = true →
      c.running = true ∧ c.displayLevel ≥ lv.ProgressLevel ∧
        c.displayLevel ≥ lv.ExtendedInfoLevel) :
    (c.call lv call).checkUpdatesProgress = true →
      (c.call lv call).running = true ∧ (c.call lv call).displayLevel ≥ lv.ProgressLevel ∧
        (c.call lv call).displayLevel ≥ lv.ExtendedInfoLevel := by
  rcases c with ⟨run, can, lvl, prog, ra, ue, di, tb, ho, tr⟩
  simp only at h
  cases call with
  | start env displayLevel =>
    rcases env with ⟨yes, accept⟩
    simp only [Controller.call, start, Controller.emit]
    cases run
    · have hp : prog = false := by
        cases prog
        · rfl
        · simpa using (h rfl).1
      subst hp
      by_cases h1 : displayLevel ≥ lv.AskLevel <;> cases yes <;> cases accept <;>
        by_cases h2 : displayLevel ≥ lv.ProgressLevel <;>
        by_cases h3 : displayLevel ≥ lv.ExtendedInfoLevel <;> cases tb <;>
        simp [h1, h2, h3]
    · simpa using h
  | cancelUpdate updaterRunning maxDelay =>
    simp only [Controller.call, cancelUpdate, Controller.emit]
    cases updaterRunning <;> cases prog <;> simp_all
  | checkUpdatesDone env hasUpdates hasError =>
    intro hp
    exfalso
    simp only [Controller.call] at hp
    rw [checkUpdatesDone_progress] at hp
    simp only at hp
    split_ifs at hp with hlev
    exact hlev (h hp).2.2
  | setRunAsAdmin runAsAdmin userEditable =>
    simp only [Controller.call, setRunAsAdmin, Controller.emit, Controller.armHandOff]
    split_ifs <;> simpa using h

/-- After `checkUpdatesDone` the controller is not running. -/
theorem checkUpdatesDone_running (lv : DisplayLevels) (env : DoneEnv) (c : Controller)
    (hasUpdates hasError : Bool) :
    (checkUpdatesDone lv env c hasUpdates hasError).running = false := by
  simp [checkUpdatesDone, Controller.emit]

/-- C19: in every state the controller reaches from an initial state by calls of
`start`, `cancelUpdate`, `checkUpdatesDone` and `setRunAsAdmin`, a progress surrogate
exists only if the controller is running and the level is at least `ProgressLevel` and
at least `ExtendedInfoLevel`; and after `checkUpdatesDone`, called in such a state, the
controller is not running and has no progress surrogate. -/
theorem reachable_progress (lv : DisplayLevels) (c : Controller)
    (h : Controller.Reachable lv c) :
    (c.checkUpdatesProgress = true →
      c.running = true ∧ c.displayLevel ≥ lv.ProgressLevel ∧
        c.displayLevel ≥ lv.ExtendedInfoLevel) ∧
    ∀ (env : DoneEnv) (hasUpdates hasError : Bool),
      (checkUpdatesDone lv env c hasUpdates hasError).running = false ∧
        (checkUpdatesDone lv env c hasUpdates hasError).checkUpdatesProgress = false := by
  obtain ⟨c0, calls, hinit, rfl⟩ := h
  have hinv : ∀ (calls : List Call) (c : Controller),
      (c.checkUpdatesProgress = true →
        c.running = true ∧ c.displayLevel ≥ lv.ProgressLevel ∧
          c.displayLevel ≥ lv.ExtendedInfoLevel) →
      ((c.calls lv calls).checkUpdatesProgress = true →
        (c.calls lv calls).running = true ∧
          (c.calls lv calls).displayLevel ≥ lv.ProgressLevel ∧
          (c.calls lv calls).displayLevel ≥ lv.ExtendedInfoLevel) := by
    intro calls
    induction calls with
    | nil => intro c hc; exact hc
    | cons call calls ih =>
      intro c hc
      exact ih (c.call lv call) (progress_invariant_call lv c call hc)
  have h0 := hinv calls c0 (by intro hp; rw [hinit.2] at hp; simp at hp)
  refine ⟨h0, fun env hasUpdates hasError => ⟨checkUpdatesDone_running _ _ _ _ _, ?_⟩⟩
  have hstep := progress_invariant_call lv (c0.calls lv calls)
    (Call.checkUpdatesDone env hasUpdates hasError) h0
  simp only [Controller.call] at hstep
  cases hp : (checkUpdatesDone lv env (c0.calls lv calls) hasUpdates hasError).checkUpdatesProgress
  · rfl
  · have := (hstep hp).1
    rw [checkUpdatesDone_running] at this
    simp at this

/-- Witness for C19: the state after one call of `start` at the level `Progress` of the
spec, from an idle controller. -/
theorem reachable_progress_witness :
    (checkUpdatesDone specLevels ⟨0, false, DialogResult.NoInstall, true⟩
        (start specLevels ⟨true, true⟩
          ⟨false, false, 0, false, false, false, false, false, none, []⟩ 4).2
        false false).checkUpdatesProgress = false :=
  ((reachable_progress specLevels
    (start specLevels ⟨true, true⟩
      ⟨false, false, 0, false, false, false, false, false, none, []⟩ 4).2
    ⟨⟨false, false, 0, false, false, false, false, false, none, []⟩,
      [Call.start ⟨true, true⟩ 4], ⟨rfl, rfl⟩, rfl⟩).2
    ⟨0, false, DialogResult.NoInstall, true⟩ false false).2

end QtAutoUpdater
